import Mathlib

/-!
Shallow embedding of the expansion/dedup/filter/prune engine of
`minedatabase/pickaxe.py` (class `Pickaxe` and its module-level helpers),
together with proofs settling the frozen claims about it.

Python dictionaries are modelled as association lists with unique keys
(insertion order preserved, replacement keeps the position of the key),
Python sets of strings as `Finset String`, Python floats (similarity
scores) as rationals, and the external RDKit toolkit plus the repository's
`utils` module (absent from the provided sources) as function parameters.
-/

namespace MineDB

/-! ## Association-list maps (Python `dict`) -/

/-- A Python `dict` keyed by strings: an association list, first entry wins. -/
abbrev Map (α : Type) : Type := List (String × α)

/-- Dictionary lookup (`d[k]` / `d.get(k)`). -/
def mlookup {α : Type} : Map α → String → Option α
  | [], _ => none
  | (k, v) :: t, key => if k = key then some v else mlookup t key

/-- Python `key in d`. -/
def mcontains {α : Type} (m : Map α) (key : String) : Bool :=
  (mlookup m key).isSome

/-- Python `d[k] = v`: replace in place if the key exists, append otherwise. -/
def minsert {α : Type} : Map α → String → α → Map α
  | [], key, v => [(key, v)]
  | (k, w) :: t, key, v =>
    if k = key then (k, v) :: t else (k, w) :: minsert t key v

/-- Python `del d[k]` (removes the first entry with the key). -/
def merase {α : Type} : Map α → String → Map α
  | [], _ => []
  | (k, v) :: t, key => if k = key then t else (k, v) :: merase t key

/-- Python `d[k] = f(d[k])` as a single in-place update; no-op if absent. -/
def mmodify {α : Type} : Map α → String → (α → α) → Map α
  | [], _, _ => []
  | (k, v) :: t, key, f =>
    if k = key then (k, f v) :: t else (k, v) :: mmodify t key f

/-- Python `d.keys()`. -/
def mkeys {α : Type} (m : Map α) : List String := m.map Prod.fst

/-- Python `d.update(d2)`. -/
def mupdate {α : Type} (m m2 : Map α) : Map α :=
  m2.foldl (fun acc kv => minsert acc kv.1 kv.2) m

/-! ## String helpers used by the source

The source only ever inspects the first character of a compound id
(`cpd_id.startswith('C')` and friends) and builds the coreactant-side id
`'X' + cpd_id[1:]`; product SMILES are checked for a fragment separator with
`'.' in smiles`.  These are modelled on the character list of the string. -/

/-- `s.startswith(c)` for a single-character tag. -/
def hasTag (s : String) (c : Char) : Bool := s.data.head? == some c

/-- `'X' + s[1:]`: the coreactant-namespace variant of a compound id. -/
def xVariant (s : String) : String := String.mk ('X' :: s.data.tail)

/-- `'.' in s`: whether a SMILES string denotes a multi-fragment structure. -/
def hasDot (s : String) : Bool := s.data.contains '.'

/-! ## Records

`Cpd` embeds the compound dictionaries built by `Pickaxe._gen_compound` and
by `_run_reaction._gen_compound`; `Rxn` embeds the reaction dictionaries
built by `_run_reaction`.  For compound ids in the coreactant namespace the
source deletes the `Reactant_in`/`Product_of` entries; here the two lists
simply stay empty (the source never reads them for such ids). -/

structure Cpd where
  /-- `ID` (display name; `None` for predicted compounds). -/
  name : Option String
  /-- `_id` (content hash). -/
  cid : String
  /-- `SMILES`. -/
  smiles : String
  /-- `Type`. -/
  ctype : String
  /-- `Generation`. -/
  generation : Nat
  /-- `atom_count`: element symbol to count. -/
  atomCount : List (String × Nat)
  /-- `Reactant_in`. -/
  reactantIn : List String
  /-- `Product_of`. -/
  productOf : List String
  /-- `Expand`. -/
  expand : Bool
  /-- `Formula`. -/
  formula : String
  /-- `last_tani` (a float in the source, modelled as a rational). -/
  lastTani : ℚ
  deriving DecidableEq

structure Rxn where
  /-- `_id` (reaction hash). -/
  rid : String
  /-- `Reactants`: (stoichiometric coefficient, compound id) pairs. -/
  reactants : List (Nat × String)
  /-- `Products`: (stoichiometric coefficient, compound id) pairs. -/
  products : List (Nat × String)
  /-- `Operators`: names of the rules known to produce this reaction. -/
  operators : Finset String
  /-- `Partial Operators` (present only when set by the partial pipeline). -/
  partOps : Option (Finset String)
  /-- `SMILES_rxn`. -/
  smilesRxn : String
  deriving DecidableEq

/-- The in-memory network: `self.compounds` and `self.reactions`. -/
structure NetState where
  compounds : Map Cpd
  reactions : Map Rxn
  deriving DecidableEq

/-! ## Basic map lemmas -/

theorem mlookup_minsert_self {α : Type} (m : Map α) (k : String) (v : α) :
    mlookup (minsert m k v) k = some v := by
  induction m with
  | nil => simp [minsert, mlookup]
  | cons kv t ih =>
    obtain ⟨k', w⟩ := kv
    by_cases h : k' = k <;> simp [minsert, h, mlookup, ih]

theorem mlookup_minsert_ne {α : Type} (m : Map α) (k k' : String) (v : α)
    (h : k' ≠ k) : mlookup (minsert m k v) k' = mlookup m k' := by
  have hk : k ≠ k' := Ne.symm h
  induction m with
  | nil => simp [minsert, mlookup, hk]
  | cons kv t ih =>
    obtain ⟨k0, w⟩ := kv
    by_cases h0 : k0 = k
    · subst h0
      simp [minsert, mlookup, hk]
    · simp [minsert, h0, mlookup, ih]

theorem mlookup_merase_ne {α : Type} (m : Map α) (k k' : String)
    (h : k' ≠ k) : mlookup (merase m k) k' = mlookup m k' := by
  have hk : k ≠ k' := Ne.symm h
  induction m with
  | nil => simp [merase]
  | cons kv t ih =>
    obtain ⟨k0, w⟩ := kv
    by_cases h0 : k0 = k
    · subst h0
      simp [merase, mlookup, hk]
    · simp [merase, h0, mlookup, ih]

theorem mlookup_mmodify_self {α : Type} (m : Map α) (k : String) (f : α → α) :
    mlookup (mmodify m k f) k = (mlookup m k).map f := by
  induction m with
  | nil => simp [mmodify, mlookup]
  | cons kv t ih =>
    obtain ⟨k0, w⟩ := kv
    by_cases h0 : k0 = k <;> simp [mmodify, h0, mlookup, ih]

theorem mlookup_mmodify_ne {α : Type} (m : Map α) (k k' : String) (f : α → α)
    (h : k' ≠ k) : mlookup (mmodify m k f) k' = mlookup m k' := by
  have hk : k ≠ k' := Ne.symm h
  induction m with
  | nil => simp [mmodify]
  | cons kv t ih =>
    obtain ⟨k0, w⟩ := kv
    by_cases h0 : k0 = k
    · subst h0
      simp [mmodify, mlookup, hk]
    · simp [mmodify, h0, mlookup, ih]

theorem mkeys_minsert {α : Type} (m : Map α) (k : String) (v : α) (k' : String) :
    k' ∈ mkeys (minsert m k v) ↔ k' ∈ mkeys m ∨ k' = k := by
  induction m with
  | nil => simp [minsert, mkeys]
  | cons kv t ih =>
    obtain ⟨k0, w⟩ := kv
    by_cases h0 : k0 = k
    · subst h0
      simp [minsert, mkeys]
      tauto
    · simp [minsert, h0, mkeys] at ih ⊢
      tauto

theorem mkeys_mmodify {α : Type} (m : Map α) (k : String) (f : α → α) :
    mkeys (mmodify m k f) = mkeys m := by
  induction m with
  | nil => simp [mmodify]
  | cons kv t ih =>
    obtain ⟨k0, w⟩ := kv
    by_cases h0 : k0 = k <;> simp [mmodify, h0, mkeys] at ih ⊢ <;> exact ih

theorem mcontains_iff_mem_mkeys {α : Type} (m : Map α) (k : String) :
    mcontains m k = true ↔ k ∈ mkeys m := by
  induction m with
  | nil => simp [mcontains, mlookup, mkeys]
  | cons kv t ih =>
    obtain ⟨k0, w⟩ := kv
    by_cases h0 : k0 = k
    · subst h0
      simp [mcontains, mlookup, mkeys]
    · simp [mcontains, mlookup, h0, mkeys, Ne.symm h0] at ih ⊢
      exact ih

theorem mlookup_mem {α : Type} (m : Map α) (k : String) (v : α)
    (h : mlookup m k = some v) : (k, v) ∈ m := by
  induction m with
  | nil => simp [mlookup] at h
  | cons kv t ih =>
    obtain ⟨k0, w⟩ := kv
    by_cases h0 : k0 = k
    · subst h0
      simp [mlookup] at h
      simp [h]
    · simp [mlookup, h0] at h
      simp [ih h]

theorem mlookup_eq_of_mem_nodup {α : Type} (m : Map α) (kv : String × α)
    (hn : (mkeys m).Nodup) (h : kv ∈ m) : mlookup m kv.1 = some kv.2 := by
  induction m with
  | nil => simp at h
  | cons kv0 t ih =>
    obtain ⟨k0, w⟩ := kv0
    have hn' : k0 ∉ mkeys t ∧ (mkeys t).Nodup := List.nodup_cons.mp hn
    rcases List.mem_cons.mp h with heq | hmem
    · subst heq
      simp [mlookup]
    · have hne : k0 ≠ kv.1 := by
        intro he
        apply hn'.1
        subst he
        exact List.mem_map.mpr ⟨kv, hmem, rfl⟩
      simp [mlookup, hne]
      exact ih hn'.2 hmem

theorem mkeys_minsert_eq {α : Type} (m : Map α) (k : String) (v : α) :
    mkeys (minsert m k v) = if k ∈ mkeys m then mkeys m else mkeys m ++ [k] := by
  induction m with
  | nil => simp [minsert, mkeys]
  | cons kv t ih =>
    obtain ⟨k0, w⟩ := kv
    by_cases h0 : k0 = k
    · subst h0
      simp [minsert, mkeys]
    · simp [minsert, h0, mkeys, Ne.symm h0] at ih ⊢
      rw [ih]
      by_cases hm : k ∈ List.map Prod.fst t <;> simp [hm, Ne.symm h0]

/-! ## Counters (`collections.Counter`) -/

/-- A `collections.Counter` keyed by strings. -/
abbrev Counter : Type := Map Nat

/-- `counter[k]` (0 when absent). -/
def cGet (c : Counter) (k : String) : Nat := (mlookup c k).getD 0

/-- `counter[k] += n` (inserting the key at the end when new). -/
def cAdd (c : Counter) (k : String) (n : Nat) : Counter :=
  minsert c k (cGet c k + n)

/-- Truthiness of `c1 - c2` for counters: the difference keeps only keys with
a positive count, so it is non-empty exactly when some key of `c1` counts
strictly more in `c1` than in `c2`. -/
def counterSubNonempty (c1 c2 : Counter) : Bool :=
  c1.any (fun kv => decide (cGet c2 kv.1 < cGet c1 kv.1))

/-- The balance test of `_run_reaction` (lines 1642-1645): the candidate is
balanced when `reactant_atoms - product_atoms or product_atoms -
reactant_atoms` is falsy. -/
def isBalanced (ra pa : Counter) : Bool :=
  !(counterSubNonempty ra pa || counterSubNonempty pa ra)

theorem cGet_cAdd (c : Counter) (k k' : String) (n : Nat) :
    cGet (cAdd c k n) k' = cGet c k' + (if k' = k then n else 0) := by
  by_cases h : k' = k
  · subst h
    simp [cAdd, cGet, mlookup_minsert_self]
  · simp [cAdd, cGet, mlookup_minsert_ne _ _ _ _ h, h]

theorem counterSubNonempty_iff (c1 c2 : Counter) :
    counterSubNonempty c1 c2 = true ↔ ∃ k, cGet c2 k < cGet c1 k := by
  constructor
  · intro h
    rcases List.any_eq_true.mp h with ⟨kv, _, hkv⟩
    exact ⟨kv.1, of_decide_eq_true hkv⟩
  · rintro ⟨k, hk⟩
    have hpos : 0 < cGet c1 k := lt_of_le_of_lt (Nat.zero_le _) hk
    have hsome : ∃ v, mlookup c1 k = some v := by
      cases hv : mlookup c1 k with
      | none => simp [cGet, hv] at hpos
      | some v => exact ⟨v, rfl⟩
    rcases hsome with ⟨v, hv⟩
    exact List.any_eq_true.mpr ⟨(k, v), mlookup_mem _ _ _ hv, decide_eq_true hk⟩

theorem isBalanced_iff (ra pa : Counter) :
    isBalanced ra pa = true ↔ ∀ k, cGet ra k = cGet pa k := by
  simp only [isBalanced, Bool.not_eq_true', Bool.or_eq_false_iff]
  constructor
  · rintro ⟨h1, h2⟩ k
    have n1 : ¬∃ k, cGet pa k < cGet ra k := by
      rw [← counterSubNonempty_iff]
      simp [h1]
    have n2 : ¬∃ k, cGet ra k < cGet pa k := by
      rw [← counterSubNonempty_iff]
      simp [h2]
    push_neg at n1 n2
    exact le_antisymm (n1 k) (n2 k)
  · intro h
    constructor
    · rw [← Bool.not_eq_true, counterSubNonempty_iff]
      push_neg
      intro k
      exact le_of_eq (h k)
    · rw [← Bool.not_eq_true, counterSubNonempty_iff]
      push_neg
      intro k
      exact le_of_eq (h k).symm

/-! ## The rule-application core: `_run_reaction` (lines 1570-1666)

The chemistry itself is external.  `Mol` is the opaque RDKit molecule type
and `Toolkit` collects the capabilities `_run_reaction` consumes. -/

/-- Modelled from the spec: the toolkit functions used by `_run_reaction`.
`prepProduct`, `molToSmiles` and `molFormula` wrap RDKit (an external
collaborator); `atomCount`, `compoundHash` and `rxn2hash` wrap
`minedatabase.utils`, whose source file is not included under `src/` — per
the spec they are deterministic pure functions: `compound_hash` is a
"deterministic content hash of (canonical structure, role-class)" (`none`
models a falsy hash) and `rxn2hash` a "deterministic hash of the sorted
(stoichiometry, compound-id) pairs on each side" together with the rendered
SMILES equation. -/
structure Toolkit (Mol : Type) where
  prepProduct : Bool → Mol → Option Mol
  molToSmiles : Mol → String
  atomCount : Mol → List (String × Nat)
  molFormula : Mol → String
  compoundHash : String → String → Option String
  rxn2hash : List (Nat × Cpd) → List (Nat × Cpd) → String × String

/-- An operator as stored in `self.operators`: the compiled SMARTS template
(opaque, represented by its `RunReactants` behaviour) plus the rule
dictionary's role lists (`rule[1]['Reactants']` / `rule[1]['Products']`). -/
structure RuleOp (Mol : Type) where
  runReactants : List Mol → List (List Mol)
  reactantRoles : List String
  productRoles : List String

/-- `_gen_compound` local to `_run_reaction` (lines 1597-1625): prepare and
canonicalize the product molecule, reject multi-fragment SMILES outright,
hash, and reuse the locally known dictionary when the id was already seen. -/
def rrGenCompound {Mol : Type} (tk : Toolkit Mol) (explicitH : Bool)
    (generation : Nat) (localCpds : Map Cpd) (mol : Mol) : Option Cpd :=
  match tk.prepProduct explicitH mol with
  | none => none
  | some m =>
    let molSmiles := tk.molToSmiles m
    if hasDot molSmiles then none
    else
      match tk.compoundHash molSmiles "Predicted" with
      | none => none
      | some cpdId =>
        match mlookup localCpds cpdId with
        | some c => some c
        | none => some
            { name := none, cid := cpdId, smiles := molSmiles,
              ctype := "Predicted", generation := generation,
              atomCount := tk.atomCount m, reactantIn := [], productOf := [],
              expand := true, formula := tk.molFormula m, lastTani := 0 }

/-- Resolve one (molecule, role) pair of `_make_half_rxn` (lines 1577-1586):
a wildcard role generates a compound from the molecule, a fixed role looks
the named coreactant up (`coreactant_mols[rule][1]` then
`coreactant_dict[cpd_id]`; a missing key raises in the source and is
modelled as failure of the half-reaction). -/
def resolveRole {Mol : Type} (tk : Toolkit Mol) (explicitH : Bool)
    (generation : Nat) (coreactantMols : Map (Mol × String))
    (coreactantDict : Map Cpd) (localCpds : Map Cpd)
    (mol : Mol) (role : String) : Option Cpd :=
  if role = "Any" then rrGenCompound tk explicitH generation localCpds mol
  else
    match mlookup coreactantMols role with
    | none => none
    | some mc => mlookup coreactantDict mc.2

/-- The first loop of `_make_half_rxn` (lines 1574-1588): build the dict of
distinct compounds (`cpds`) and the stoichiometry counter (`cpd_counter`). -/
def halfCpds {Mol : Type} (tk : Toolkit Mol) (explicitH : Bool)
    (generation : Nat) (coreactantMols : Map (Mol × String))
    (coreactantDict : Map Cpd) (localCpds : Map Cpd) :
    List (Mol × String) → Map Cpd → Counter → Option (Map Cpd × Counter)
  | [], cpds, counter => some (cpds, counter)
  | (mol, role) :: rest, cpds, counter =>
    match resolveRole tk explicitH generation coreactantMols coreactantDict
        localCpds mol role with
    | none => none
    | some c =>
      halfCpds tk explicitH generation coreactantMols coreactantDict localCpds
        rest (minsert cpds c.cid c) (cAdd counter c.cid 1)

/-- The atom-count aggregation of `_make_half_rxn` (lines 1590-1593):
`atom_counts[atom_id] += atom_count * cpd_counter[cpd_id]`. -/
def halfAtoms (cpds : Map Cpd) (counter : Counter) : Counter :=
  cpds.foldl (fun acc kv =>
    kv.2.atomCount.foldl
      (fun acc2 av => cAdd acc2 av.1 (av.2 * cGet counter kv.1)) acc) []

/-- The return list of `_make_half_rxn` (line 1595):
`[(stoich, cpds[cpd_id]) for cpd_id, stoich in cpd_counter.items()]`. -/
def halfList (cpds : Map Cpd) : Counter → Option (List (Nat × Cpd))
  | [] => some []
  | kv :: t =>
    match mlookup cpds kv.1 with
    | none => none
    | some c => (halfList cpds t).map (fun rest => (kv.2, c) :: rest)

/-- `_make_half_rxn` (lines 1573-1595). -/
def makeHalfRxn {Mol : Type} (tk : Toolkit Mol) (explicitH : Bool)
    (generation : Nat) (coreactantMols : Map (Mol × String))
    (coreactantDict : Map Cpd) (localCpds : Map Cpd)
    (molList : List Mol) (roles : List String) :
    Option (List (Nat × Cpd) × Counter) :=
  match halfCpds tk explicitH generation coreactantMols coreactantDict
      localCpds (molList.zip roles) [] [] with
  | none => none
  | some (cpds, counter) =>
    (halfList cpds counter).map (fun half => (half, halfAtoms cpds counter))

/-- The claim's "element-wise sum of atom counts over a half-reaction, each
compound weighted by its stoichiometric coefficient", at one element. -/
def halfWeight (half : List (Nat × Cpd)) (e : String) : Nat :=
  (half.map (fun p => p.1 * cGet p.2.atomCount e)).sum

/-- The body of `_run_reaction`'s per-candidate loop (lines 1636-1664):
build the product half-reaction, test atom balance, and either admit the
candidate — insert its generated product compounds into `local_cpds` and
insert the hashed reaction into `local_rxns`, or add the rule name to the
`Operators` of an already-present reaction — or discard it, leaving both
stores untouched. -/
def processProductSet {Mol : Type} (tk : Toolkit Mol) (explicitH : Bool)
    (generation : Nat) (ruleName : String) (productRoles : List String)
    (coreactantMols : Map (Mol × String)) (coreactantDict : Map Cpd)
    (reactants : List (Nat × Cpd)) (reactantAtoms : Counter)
    (st : Map Cpd × Map Rxn) (productMols : List Mol) : Map Cpd × Map Rxn :=
  match makeHalfRxn tk explicitH generation coreactantMols coreactantDict st.1
      productMols productRoles with
  | none => st
  | some (products, productAtoms) =>
    if products.isEmpty then st
    else if isBalanced reactantAtoms productAtoms then
      let localCpds := products.foldl
        (fun m p => if hasTag p.2.cid 'C' then minsert m p.2.cid p.2 else m)
        st.1
      let hashed := tk.rxn2hash reactants products
      let localRxns :=
        match mlookup st.2 hashed.1 with
        | none => minsert st.2 hashed.1
            { rid := hashed.1,
              reactants := reactants.map (fun p => (p.1, p.2.cid)),
              products := products.map (fun p => (p.1, p.2.cid)),
              operators := {ruleName}, partOps := none, smilesRxn := hashed.2 }
        | some r =>
          minsert st.2 hashed.1 { r with operators := insert ruleName r.operators }
      (localCpds, localRxns)
    else st

/-- `_run_reaction` (lines 1570-1666): enumerate candidate product sets for
one rule application and fold the per-candidate body over them; a failed (or
empty) reactant half-reaction returns the stores unchanged. -/
def runReaction {Mol : Type} (tk : Toolkit Mol) (explicitH : Bool)
    (generation : Nat) (ruleName : String) (rule : RuleOp Mol)
    (reactantMols : List Mol) (coreactantMols : Map (Mol × String))
    (coreactantDict : Map Cpd) (st : Map Cpd × Map Rxn) : Map Cpd × Map Rxn :=
  let productSets := rule.runReactants reactantMols
  match makeHalfRxn tk explicitH generation coreactantMols coreactantDict st.1
      reactantMols rule.reactantRoles with
  | none => st
  | some (reactants, reactantAtoms) =>
    if reactants.isEmpty then st
    else productSets.foldl
      (processProductSet tk explicitH generation ruleName rule.productRoles
        coreactantMols coreactantDict reactants reactantAtoms) st

/-! ## Atom-balance lemmas for C2 -/

/-- Total count carried by key `e` in an association list (with unique keys
this is just the lookup). -/
def sumKey (l : List (String × Nat)) (e : String) : Nat :=
  (l.map (fun av => if av.1 = e then av.2 else 0)).sum

theorem sumKey_cons (k : String) (v : Nat) (t : List (String × Nat))
    (e : String) :
    sumKey ((k, v) :: t) e = (if k = e then v else 0) + sumKey t e := by
  simp [sumKey]

theorem cGet_cons (k : String) (v : Nat) (t : Counter) (e : String) :
    cGet ((k, v) :: t) e = if k = e then v else cGet t e := by
  by_cases hk : k = e <;> simp [cGet, mlookup, hk]

theorem sumKey_eq_zero (l : List (String × Nat)) (e : String)
    (h : e ∉ l.map Prod.fst) : sumKey l e = 0 := by
  induction l with
  | nil => simp [sumKey]
  | cons av t ih =>
    obtain ⟨k, v⟩ := av
    have hne : ¬ k = e := by
      intro he
      exact h (by simp [he])
    have ht : e ∉ t.map Prod.fst := by
      intro hm
      exact h (by simp [hm])
    rw [sumKey_cons, if_neg hne, ih ht]

theorem sumKey_eq_cGet (l : List (String × Nat)) (e : String)
    (h : (l.map Prod.fst).Nodup) : sumKey l e = cGet l e := by
  induction l with
  | nil => simp [sumKey, cGet, mlookup]
  | cons av t ih =>
    obtain ⟨k, v⟩ := av
    have h' : k ∉ t.map Prod.fst ∧ (t.map Prod.fst).Nodup :=
      List.nodup_cons.mp h
    rw [sumKey_cons, cGet_cons]
    by_cases hk : k = e
    · subst hk
      rw [if_pos rfl, if_pos rfl, sumKey_eq_zero t k h'.1]
      omega
    · rw [if_neg hk, if_neg hk, ih h'.2, Nat.zero_add]

theorem cGet_foldl_row (l : List (String × Nat)) (m : Nat) (acc : Counter)
    (e : String) :
    cGet (l.foldl (fun a av => cAdd a av.1 (av.2 * m)) acc) e
      = cGet acc e + m * sumKey l e := by
  induction l generalizing acc with
  | nil => simp [sumKey]
  | cons av t ih =>
    obtain ⟨k0, v⟩ := av
    rw [List.foldl_cons, ih, sumKey_cons, cGet_cAdd]
    by_cases he : e = k0
    · subst he
      rw [if_pos rfl, if_pos rfl]
      ring
    · rw [if_neg he, if_neg (fun hh => he hh.symm)]
      ring

theorem cGet_halfAtoms_aux (cpds : Map Cpd) (counter : Counter)
    (acc : Counter) (e : String) :
    cGet (cpds.foldl (fun acc kv =>
        kv.2.atomCount.foldl
          (fun acc2 av => cAdd acc2 av.1 (av.2 * cGet counter kv.1)) acc)
      acc) e
      = cGet acc e
        + (cpds.map (fun kv => cGet counter kv.1 * sumKey kv.2.atomCount e)).sum := by
  induction cpds generalizing acc with
  | nil => simp
  | cons kv t ih =>
    rw [List.foldl_cons, ih, cGet_foldl_row]
    simp only [List.map_cons, List.sum_cons]
    ring

theorem cGet_halfAtoms (cpds : Map Cpd) (counter : Counter) (e : String) :
    cGet (halfAtoms cpds counter) e
      = (cpds.map (fun kv => cGet counter kv.1 * sumKey kv.2.atomCount e)).sum := by
  rw [halfAtoms, cGet_halfAtoms_aux]
  simp [cGet, mlookup]

theorem halfList_mem_spec (cpds : Map Cpd) (counter : Counter)
    (half : List (Nat × Cpd)) (h : halfList cpds counter = some half) :
    ∀ kv ∈ counter, ∃ p ∈ half, p.1 = kv.2 ∧ mlookup cpds kv.1 = some p.2 := by
  induction counter generalizing half with
  | nil => intro kv hkv; simp at hkv
  | cons kv0 t ih =>
    intro kv hkv
    rw [halfList] at h
    cases hc : mlookup cpds kv0.1 with
    | none => rw [hc] at h; simp at h
    | some c =>
      rw [hc] at h
      cases ht : halfList cpds t with
      | none => rw [ht] at h; simp at h
      | some rest =>
        rw [ht] at h
        simp at h
        rcases List.mem_cons.mp hkv with heq | hmem
        · subst heq
          exact ⟨(kv.2, c), by rw [← h]; simp, rfl, hc⟩
        · rcases ih rest ht kv hmem with ⟨p, hp, hps⟩
          exact ⟨p, by rw [← h]; simp [hp], hps⟩

theorem halfCpds_keys {Mol : Type} (tk : Toolkit Mol) (explicitH : Bool)
    (generation : Nat) (coreactantMols : Map (Mol × String))
    (coreactantDict : Map Cpd) (localCpds : Map Cpd) :
    ∀ (pairs : List (Mol × String)) (cpds0 : Map Cpd) (counter0 : Counter)
      (cpds : Map Cpd) (counter : Counter),
    halfCpds tk explicitH generation coreactantMols coreactantDict localCpds
        pairs cpds0 counter0 = some (cpds, counter) →
    mkeys cpds0 = mkeys counter0 → (mkeys cpds0).Nodup →
    mkeys cpds = mkeys counter ∧ (mkeys cpds).Nodup := by
  intro pairs
  induction pairs with
  | nil =>
    intro cpds0 counter0 cpds counter h he hn
    simp [halfCpds] at h
    rw [← h.1, ← h.2]
    exact ⟨he, hn⟩
  | cons p rest ih =>
    intro cpds0 counter0 cpds counter h he hn
    obtain ⟨mol, role⟩ := p
    rw [halfCpds] at h
    cases hr : resolveRole tk explicitH generation coreactantMols
        coreactantDict localCpds mol role with
    | none => rw [hr] at h; simp at h
    | some c =>
      rw [hr] at h
      simp at h
      refine ih _ _ cpds counter h ?_ ?_
      · rw [mkeys_minsert_eq, cAdd, mkeys_minsert_eq, he]
      · rw [mkeys_minsert_eq]
        by_cases hm : c.cid ∈ mkeys cpds0
        · simpa [hm] using hn
        · simp only [if_neg hm]
          simp [List.nodup_append, hn, hm]

/-- Value-level atom count of the compound stored at a key (0 if absent). -/
def atomAt (cpds : Map Cpd) (e k : String) : Nat :=
  match mlookup cpds k with
  | some c => cGet c.atomCount e
  | none => 0

theorem halfWeight_eq_counter_sum (cpds : Map Cpd) (counter : Counter)
    (half : List (Nat × Cpd)) (h : halfList cpds counter = some half)
    (e : String) :
    halfWeight half e
      = (counter.map (fun kv => kv.2 * atomAt cpds e kv.1)).sum := by
  induction counter generalizing half with
  | nil =>
    simp [halfList] at h
    subst h
    simp [halfWeight]
  | cons kv t ih =>
    rw [halfList] at h
    cases hc : mlookup cpds kv.1 with
    | none => rw [hc] at h; simp at h
    | some c =>
      rw [hc] at h
      cases ht : halfList cpds t with
      | none => rw [ht] at h; simp at h
      | some rest =>
        rw [ht] at h
        simp at h
        rw [← h]
        simp only [halfWeight, List.map_cons, List.sum_cons]
        rw [show (List.map (fun p => p.1 * cGet p.2.atomCount e) rest).sum
            = halfWeight rest e from rfl]
        rw [ih rest ht]
        unfold atomAt
        rw [hc]

/-- The atom counter computed by `_make_half_rxn` is exactly the
stoichiometry-weighted element-wise sum over the returned half-reaction. -/
theorem makeHalfRxn_weight {Mol : Type} (tk : Toolkit Mol) (explicitH : Bool)
    (generation : Nat) (coreactantMols : Map (Mol × String))
    (coreactantDict : Map Cpd) (localCpds : Map Cpd)
    (molList : List Mol) (roles : List String)
    (half : List (Nat × Cpd)) (atoms : Counter)
    (h : makeHalfRxn tk explicitH generation coreactantMols coreactantDict
        localCpds molList roles = some (half, atoms))
    (hwf : ∀ p ∈ half, (p.2.atomCount.map Prod.fst).Nodup) (e : String) :
    cGet atoms e = halfWeight half e := by
  rw [makeHalfRxn] at h
  cases hc : halfCpds tk explicitH generation coreactantMols coreactantDict
      localCpds (molList.zip roles) [] [] with
  | none => rw [hc] at h; simp at h
  | some pr =>
    obtain ⟨cpds, counter⟩ := pr
    rw [hc] at h
    have h2 : Option.map (fun half => (half, halfAtoms cpds counter))
        (halfList cpds counter) = some (half, atoms) := h
    cases hl : halfList cpds counter with
    | none => rw [hl] at h2; simp at h2
    | some half0 =>
      rw [hl] at h2
      simp at h2
      obtain ⟨hhalf, hatoms⟩ := h2
      subst hhalf
      subst hatoms
      have hkeys := halfCpds_keys tk explicitH generation coreactantMols
        coreactantDict localCpds (molList.zip roles) [] [] cpds counter hc
        (by simp [mkeys]) (by simp [mkeys])
      -- left side: sum over the entries of `cpds`
      rw [cGet_halfAtoms]
      -- right side: sum over the entries of `counter`
      rw [halfWeight_eq_counter_sum cpds counter half0 hl e]
      -- rewrite both sides as sums over the common key list
      have hcpds_entries : ∀ kv ∈ cpds,
          cGet counter kv.1 * sumKey kv.2.atomCount e
            = cGet counter kv.1 * atomAt cpds e kv.1 := by
        intro kv hkv
        have hlk : mlookup cpds kv.1 = some kv.2 :=
          mlookup_eq_of_mem_nodup cpds kv hkeys.2 hkv
        have hmemc : kv.1 ∈ mkeys counter := by
          rw [← hkeys.1]
          exact List.mem_map.mpr ⟨kv, hkv, rfl⟩
        rcases List.mem_map.mp hmemc with ⟨kv', hkv', hfst⟩
        rcases halfList_mem_spec cpds counter half0 hl kv' hkv'
          with ⟨p, hp, _, hlk'⟩
        have : kv.2 = p.2 := by
          have := hlk'
          rw [hfst, hlk] at this
          exact (Option.some_inj.mp this)
        have hnwf : (kv.2.atomCount.map Prod.fst).Nodup := by
          rw [this]
          exact hwf p hp
        rw [sumKey_eq_cGet _ _ hnwf]
        unfold atomAt
        rw [hlk]
      have hcounter_entries : ∀ kv ∈ counter,
          kv.2 * atomAt cpds e kv.1 = cGet counter kv.1 * atomAt cpds e kv.1 := by
        intro kv hkv
        have hnodc : (mkeys counter).Nodup := by
          rw [← hkeys.1]; exact hkeys.2
        have : mlookup counter kv.1 = some kv.2 :=
          mlookup_eq_of_mem_nodup counter kv hnodc hkv
        rw [cGet, this]
        rfl
      rw [List.map_congr_left hcpds_entries, List.map_congr_left hcounter_entries]
      have e1 : cpds.map (fun kv => cGet counter kv.1 * atomAt cpds e kv.1)
          = (mkeys cpds).map (fun k => cGet counter k * atomAt cpds e k) := by
        rw [mkeys, List.map_map]
        rfl
      have e2 : counter.map (fun kv => cGet counter kv.1 * atomAt cpds e kv.1)
          = (mkeys counter).map (fun k => cGet counter k * atomAt cpds e k) := by
        rw [mkeys, List.map_map]
        rfl
      rw [e1, e2, hkeys.1]

/-- C2: a candidate reaction produced by applying a rule to a compound is
admitted into the (local) reaction store only if the element-wise sum of
atom counts over its reactants, each weighted by its stoichiometric
coefficient, exactly equals the weighted sum over its products: the balance
test `_run_reaction` performs is equivalent to that arithmetic condition,
and a candidate failing it is discarded, leaving both the compound store and
the reaction store untouched (no reaction and no new compounds). -/
theorem c2_atom_balance_gate {Mol : Type} (tk : Toolkit Mol) (explicitH : Bool)
    (generation : Nat) (ruleName : String) (productRoles : List String)
    (coreactantMols : Map (Mol × String)) (coreactantDict : Map Cpd)
    (lc : Map Cpd) (reactantMolList : List Mol) (reactantRoles : List String)
    (reactants : List (Nat × Cpd)) (reactantAtoms : Counter)
    (st : Map Cpd × Map Rxn) (productMols : List Mol)
    (products : List (Nat × Cpd)) (productAtoms : Counter)
    (hreact : makeHalfRxn tk explicitH generation coreactantMols coreactantDict
        lc reactantMolList reactantRoles = some (reactants, reactantAtoms))
    (hprod : makeHalfRxn tk explicitH generation coreactantMols coreactantDict
        st.1 productMols productRoles = some (products, productAtoms))
    (hwr : ∀ p ∈ reactants, (p.2.atomCount.map Prod.fst).Nodup)
    (hwp : ∀ p ∈ products, (p.2.atomCount.map Prod.fst).Nodup) :
    (isBalanced reactantAtoms productAtoms = true ↔
      ∀ e, halfWeight reactants e = halfWeight products e)
    ∧ (isBalanced reactantAtoms productAtoms = false →
        processProductSet tk explicitH generation ruleName productRoles
          coreactantMols coreactantDict reactants reactantAtoms st productMols
          = st) := by
  have hr := makeHalfRxn_weight tk explicitH generation coreactantMols
    coreactantDict lc reactantMolList reactantRoles reactants reactantAtoms
    hreact hwr
  have hp := makeHalfRxn_weight tk explicitH generation coreactantMols
    coreactantDict st.1 productMols productRoles products productAtoms
    hprod hwp
  constructor
  · rw [isBalanced_iff]
    constructor
    · intro hb e
      rw [← hr e, ← hp e]
      exact hb e
    · intro hb e
      rw [hr e, hp e]
      exact hb e
  · intro hb
    unfold processProductSet
    rw [hprod]
    by_cases hemp : products.isEmpty <;> simp [hemp, hb]

/-! ## Shared concrete material for witnesses -/

/-- A tiny concrete toolkit over `Mol := String` used by witnesses. -/
def tkW : Toolkit String :=
  { prepProduct := fun _ m => some m,
    molToSmiles := id,
    atomCount := fun m => [(m, 1)],
    molFormula := id,
    compoundHash := fun s t => some ("C" ++ s ++ t),
    rxn2hash := fun _ _ => ("R1", "rxn") }

/-- The compound `tkW` generates from molecule "a" at generation 0. -/
def cpdA : Cpd :=
  { name := none, cid := "CaPredicted", smiles := "a", ctype := "Predicted",
    generation := 0, atomCount := [("a", 1)], reactantIn := [],
    productOf := [], expand := true, formula := "a", lastTani := 0 }

/-- The compound `tkW` generates from molecule "b" at generation 0. -/
def cpdB : Cpd :=
  { name := none, cid := "CbPredicted", smiles := "b", ctype := "Predicted",
    generation := 0, atomCount := [("b", 1)], reactantIn := [],
    productOf := [], expand := true, formula := "b", lastTani := 0 }

/-- C2 witness: at a concrete unbalanced candidate (one "a" atom on the
reactant side against one "b" atom on the product side) the gate theorem
applies and the candidate leaves the stores untouched. -/
theorem c2_atom_balance_gate_witness :
    isBalanced [("a", 1)] [("b", 1)] = false ∧
    processProductSet tkW false 0 "rule1" ["Any"] [] [] [(1, cpdA)] [("a", 1)]
      ([], []) ["b"] = ([], []) :=
  ⟨by decide,
   (c2_atom_balance_gate tkW false 0 "rule1" ["Any"] [] [] [] ["a"] ["Any"]
      [(1, cpdA)] [("a", 1)] ([], []) ["b"] [(1, cpdB)] [("b", 1)]
      (by decide) (by decide) (by decide) (by decide)).2 (by decide)⟩

/-! ## Delta merging: `_transform_all_compounds_with_full` (lines 1708-1762)
and `Pickaxe._transform_helper.update_cpds_rxns` (lines 1327-1350) -/

/-- One per-compound result delta, as returned by
`_transform_ind_compound_with_full`: (new compounds, new reactions). -/
abbrev Delta : Type := Map Cpd × Map Rxn

/-- The master-merge loop of `_transform_all_compounds_with_full` (lines
1734-1745, parallel branch; lines 1749-1760, serial branch — the two are
textually identical and differ only in the order the per-compound deltas
arrive).  Compounds are merged with `dict.update`; a reaction id not yet in
the master is inserted, and for an id already present the source executes
`new_rxns_master[rxn]['Operators'].union(rxn_dict['Operators'])` — but
`set.union` returns a fresh set and the result is discarded, so the master
entry is left unchanged. -/
def mergeDeltas (deltas : List Delta) : Delta :=
  deltas.foldl
    (fun master delta =>
      (mupdate master.1 delta.1,
        delta.2.foldl
          (fun rm kv => if mcontains rm kv.1 then rm else minsert rm kv.1 kv.2)
          master.2))
    ([], [])

/-- The back-reference maintenance of `update_cpds_rxns` (lines 1342-1350):
append the reaction id to `Product_of` (products first) and `Reactant_in`
(reactants second) of every generated ('C') participant unless already
recorded.  A participant missing from the compound store would raise a
`KeyError` in the source; here the update is a no-op. -/
def addRxnRefs (st : NetState) (rid : String) (r : Rxn) : NetState :=
  let comps1 := r.products.foldl
    (fun m p =>
      if hasTag p.2 'C' then
        mmodify m p.2 (fun c =>
          if rid ∈ c.productOf then c
          else { c with productOf := c.productOf ++ [rid] })
      else m)
    st.compounds
  let comps2 := r.reactants.foldl
    (fun m p =>
      if hasTag p.2 'C' then
        mmodify m p.2 (fun c =>
          if rid ∈ c.reactantIn then c
          else { c with reactantIn := c.reactantIn ++ [rid] })
      else m)
    comps1
  { st with compounds := comps2 }

/-- `update_cpds_rxns` inside `Pickaxe._transform_helper` (lines 1327-1350):
merge a delta into the network.  A compound id already present is left
untouched; a reaction id already present has the delta's `Operators` unioned
in by assignment (and `Partial Operators` when the stored record carries
that key; the source raises a `KeyError` when the delta record lacks it,
modelled as keeping the stored set); back-references are then maintained for
every delta reaction. -/
def update_cpds_rxns (st : NetState) (newCpds : Map Cpd) (newRxns : Map Rxn) :
    NetState :=
  let comps0 := newCpds.foldl
    (fun m kv => if mcontains m kv.1 then m else minsert m kv.1 kv.2)
    st.compounds
  let st1 : NetState := { st with compounds := comps0 }
  newRxns.foldl
    (fun st kv =>
      let rxns2 :=
        if mcontains st.reactions kv.1 then
          mmodify st.reactions kv.1 (fun r =>
            let r1 := { r with operators := r.operators ∪ kv.2.operators }
            match r1.partOps, kv.2.partOps with
            | some p, some q => { r1 with partOps := some (p ∪ q) }
            | _, _ => r1)
        else minsert st.reactions kv.1 kv.2
      addRxnRefs { st with reactions := rxns2 } kv.1 kv.2)
    st1

/-! ## C1: concrete evaluation of the operator-set merge -/

/-- Reaction R1 as discovered by `rule1`. -/
def rxnR1op1 : Rxn :=
  { rid := "R1", reactants := [(1, "CaPredicted")],
    products := [(1, "CbPredicted")], operators := {"rule1"},
    partOps := none, smilesRxn := "rxn" }

/-- Reaction R1 as discovered by `rule2` (same hash, other rule). -/
def rxnR1op2 : Rxn :=
  { rid := "R1", reactants := [(1, "CaPredicted")],
    products := [(1, "CbPredicted")], operators := {"rule2"},
    partOps := none, smilesRxn := "rxn" }

/-- Delta of the first expanded compound: reaction R1 via `rule1`. -/
def deltaRule1 : Delta := ([("CbPredicted", cpdB)], [("R1", rxnR1op1)])

/-- Delta of the second expanded compound: the same reaction R1 via `rule2`. -/
def deltaRule2 : Delta := ([("CbPredicted", cpdB)], [("R1", rxnR1op2)])

/-- C1: evaluating the code at the failing input — two per-compound deltas of
one expansion both containing reaction id R1, the first discovered by
`rule1`, the second by `rule2` — and folding the merged master into a
network holding the expanded reactant compound, the single stored reaction
record ends up with `Operators = \x7brule1\x7d`: the second rule's name was
dropped by the master merge (its `set.union` result is discarded at lines
1742/1757), so the claimed union `\x7brule1, rule2\x7d` is not what the
network contains. -/
theorem c1_merge_drops_second_operator :
    (mlookup (update_cpds_rxns ⟨[("CaPredicted", cpdA)], []⟩
        (mergeDeltas [deltaRule1, deltaRule2]).1
        (mergeDeltas [deltaRule1, deltaRule2]).2).reactions "R1").map
      Rxn.operators = some {"rule1"}
    ∧ ({"rule1"} : Finset String) ≠ {"rule1", "rule2"} := by
  constructor
  · decide
  · decide

/-! ## C3: key-set lemmas for the merge -/

theorem mem_mkeys_insert_fold {α : Type} (l : List (String × α)) (m : Map α)
    (k : String) :
    k ∈ mkeys (l.foldl
        (fun acc kv => if mcontains acc kv.1 then acc else minsert acc kv.1 kv.2)
        m)
      ↔ k ∈ mkeys m ∨ k ∈ mkeys l := by
  induction l generalizing m with
  | nil => simp [mkeys]
  | cons kv t ih =>
    rw [List.foldl_cons, ih]
    by_cases hc : mcontains m kv.1
    · rw [if_pos hc]
      have hk : kv.1 ∈ mkeys m := (mcontains_iff_mem_mkeys m kv.1).mp hc
      constructor
      · rintro (h | h)
        · exact Or.inl h
        · exact Or.inr (by simp [mkeys]; exact Or.inr (by
            simpa [mkeys] using h))
      · rintro (h | h)
        · exact Or.inl h
        · rcases (by simpa [mkeys] using h : k = kv.1 ∨ k ∈ mkeys t) with he | ht
          · exact Or.inl (he ▸ hk)
          · exact Or.inr ht
    · rw [if_neg hc]
      constructor
      · rintro (h | h)
        · rcases (mkeys_minsert m kv.1 kv.2 k).mp h with h2 | h2
          · exact Or.inl h2
          · exact Or.inr (by simp [mkeys, h2])
        · exact Or.inr (by simp [mkeys]; exact Or.inr (by
            simpa [mkeys] using h))
      · rintro (h | h)
        · exact Or.inl ((mkeys_minsert m kv.1 kv.2 k).mpr (Or.inl h))
        · rcases (by simpa [mkeys] using h : k = kv.1 ∨ k ∈ mkeys t) with he | ht
          · exact Or.inl ((mkeys_minsert m kv.1 kv.2 k).mpr (Or.inr he))
          · exact Or.inr ht

theorem mem_mkeys_mupdate {α : Type} (m m2 : Map α) (k : String) :
    k ∈ mkeys (mupdate m m2) ↔ k ∈ mkeys m ∨ k ∈ mkeys m2 := by
  rw [mupdate]
  induction m2 generalizing m with
  | nil => simp [mkeys]
  | cons kv t ih =>
    rw [List.foldl_cons, ih]
    constructor
    · rintro (h | h)
      · rcases (mkeys_minsert m kv.1 kv.2 k).mp h with h2 | h2
        · exact Or.inl h2
        · exact Or.inr (by simp [mkeys, h2])
      · exact Or.inr (by simp [mkeys]; exact Or.inr (by simpa [mkeys] using h))
    · rintro (h | h)
      · exact Or.inl ((mkeys_minsert m kv.1 kv.2 k).mpr (Or.inl h))
      · rcases (by simpa [mkeys] using h : k = kv.1 ∨ k ∈ mkeys t) with he | ht
        · exact Or.inl ((mkeys_minsert m kv.1 kv.2 k).mpr (Or.inr he))
        · exact Or.inr ht

theorem mem_mkeys_mergeDeltas_aux (deltas : List Delta) (master : Delta)
    (k : String) :
    (k ∈ mkeys (deltas.foldl
        (fun master delta =>
          (mupdate master.1 delta.1,
            delta.2.foldl
              (fun rm kv =>
                if mcontains rm kv.1 then rm else minsert rm kv.1 kv.2)
              master.2))
        master).1
      ↔ k ∈ mkeys master.1 ∨ ∃ d ∈ deltas, k ∈ mkeys d.1)
    ∧ (k ∈ mkeys (deltas.foldl
        (fun master delta =>
          (mupdate master.1 delta.1,
            delta.2.foldl
              (fun rm kv =>
                if mcontains rm kv.1 then rm else minsert rm kv.1 kv.2)
              master.2))
        master).2
      ↔ k ∈ mkeys master.2 ∨ ∃ d ∈ deltas, k ∈ mkeys d.2) := by
  induction deltas generalizing master with
  | nil => simp
  | cons d t ih =>
    rw [List.foldl_cons]
    constructor
    · rw [(ih _).1, mem_mkeys_mupdate]
      simp only [List.mem_cons]
      constructor
      · rintro ((h | h) | ⟨d2, hd2, hk⟩)
        · exact Or.inl h
        · exact Or.inr ⟨d, Or.inl rfl, h⟩
        · exact Or.inr ⟨d2, Or.inr hd2, hk⟩
      · rintro (h | ⟨d2, hd2 | hd2, hk⟩)
        · exact Or.inl (Or.inl h)
        · exact Or.inl (Or.inr (hd2 ▸ hk))
        · exact Or.inr ⟨d2, hd2, hk⟩
    · rw [(ih _).2, mem_mkeys_insert_fold]
      simp only [List.mem_cons]
      constructor
      · rintro ((h | h) | ⟨d2, hd2, hk⟩)
        · exact Or.inl h
        · exact Or.inr ⟨d, Or.inl rfl, h⟩
        · exact Or.inr ⟨d2, Or.inr hd2, hk⟩
      · rintro (h | ⟨d2, hd2 | hd2, hk⟩)
        · exact Or.inl (Or.inl h)
        · exact Or.inl (Or.inr (hd2 ▸ hk))
        · exact Or.inr ⟨d2, hd2, hk⟩

theorem mem_mkeys_mergeDeltas (deltas : List Delta) (k : String) :
    (k ∈ mkeys (mergeDeltas deltas).1 ↔ ∃ d ∈ deltas, k ∈ mkeys d.1)
    ∧ (k ∈ mkeys (mergeDeltas deltas).2 ↔ ∃ d ∈ deltas, k ∈ mkeys d.2) := by
  have h := mem_mkeys_mergeDeltas_aux deltas ([], []) k
  rw [mergeDeltas]
  constructor
  · rw [h.1]
    simp [mkeys]
  · rw [h.2]
    simp [mkeys]

theorem addRxnRefs_compounds_keys (st : NetState) (rid : String) (r : Rxn) :
    mkeys (addRxnRefs st rid r).compounds = mkeys st.compounds := by
  have gen : ∀ (l : List (Nat × String)) (m : Map Cpd) (f : Cpd → Cpd),
      mkeys (l.foldl
        (fun m p => if hasTag p.2 'C' then mmodify m p.2 f else m) m)
        = mkeys m := by
    intro l
    induction l with
    | nil => intro m f; rfl
    | cons p t ih =>
      intro m f
      rw [List.foldl_cons, ih]
      by_cases hp : hasTag p.2 'C'
      · rw [if_pos hp, mkeys_mmodify]
      · rw [if_neg hp]
  simp only [addRxnRefs]
  rw [gen, gen]

theorem addRxnRefs_reactions (st : NetState) (rid : String) (r : Rxn) :
    (addRxnRefs st rid r).reactions = st.reactions := rfl

theorem update_cpds_rxns_compounds_keys (st : NetState) (newCpds : Map Cpd)
    (newRxns : Map Rxn) (k : String) :
    k ∈ mkeys (update_cpds_rxns st newCpds newRxns).compounds
      ↔ k ∈ mkeys st.compounds ∨ k ∈ mkeys newCpds := by
  rw [update_cpds_rxns]
  have gen : ∀ (l : Map Rxn) (st0 : NetState),
      mkeys (l.foldl
        (fun st kv =>
          let rxns2 :=
            if mcontains st.reactions kv.1 then
              mmodify st.reactions kv.1 (fun r =>
                let r1 := { r with operators := r.operators ∪ kv.2.operators }
                match r1.partOps, kv.2.partOps with
                | some p, some q => { r1 with partOps := some (p ∪ q) }
                | _, _ => r1)
            else minsert st.reactions kv.1 kv.2
          addRxnRefs { st with reactions := rxns2 } kv.1 kv.2)
        st0).compounds = mkeys st0.compounds := by
    intro l
    induction l with
    | nil => intro st0; rfl
    | cons kv t ih =>
      intro st0
      rw [List.foldl_cons, ih, addRxnRefs_compounds_keys]
  rw [gen]
  exact mem_mkeys_insert_fold newCpds st.compounds k

theorem update_cpds_rxns_reactions_keys (st : NetState) (newCpds : Map Cpd)
    (newRxns : Map Rxn) (k : String) :
    k ∈ mkeys (update_cpds_rxns st newCpds newRxns).reactions
      ↔ k ∈ mkeys st.reactions ∨ k ∈ mkeys newRxns := by
  rw [update_cpds_rxns]
  have gen : ∀ (l : Map Rxn) (st0 : NetState),
      k ∈ mkeys (l.foldl
        (fun st kv =>
          let rxns2 :=
            if mcontains st.reactions kv.1 then
              mmodify st.reactions kv.1 (fun r =>
                let r1 := { r with operators := r.operators ∪ kv.2.operators }
                match r1.partOps, kv.2.partOps with
                | some p, some q => { r1 with partOps := some (p ∪ q) }
                | _, _ => r1)
            else minsert st.reactions kv.1 kv.2
          addRxnRefs { st with reactions := rxns2 } kv.1 kv.2)
        st0).reactions ↔ k ∈ mkeys st0.reactions ∨ k ∈ mkeys l := by
    intro l
    induction l with
    | nil => intro st0; simp [mkeys]
    | cons kv t ih =>
      intro st0
      rw [List.foldl_cons, ih]
      by_cases hc : mcontains st0.reactions kv.1
      · have hk : kv.1 ∈ mkeys st0.reactions :=
          (mcontains_iff_mem_mkeys _ kv.1).mp hc
        simp only [hc, if_pos, addRxnRefs_reactions, mkeys_mmodify]
        constructor
        · rintro (h | h)
          · exact Or.inl h
          · exact Or.inr (by simp [mkeys]; exact Or.inr (by
              simpa [mkeys] using h))
        · rintro (h | h)
          · exact Or.inl h
          · rcases (by simpa [mkeys] using h : k = kv.1 ∨ k ∈ mkeys t)
              with he | ht
            · exact Or.inl (he ▸ hk)
            · exact Or.inr ht
      · simp only [hc, if_neg, Bool.false_eq_true, addRxnRefs_reactions]
        constructor
        · rintro (h | h)
          · rcases (mkeys_minsert _ kv.1 kv.2 k).mp h with h2 | h2
            · exact Or.inl h2
            · exact Or.inr (by simp [mkeys, h2])
          · exact Or.inr (by simp [mkeys]; exact Or.inr (by
              simpa [mkeys] using h))
        · rintro (h | h)
          · exact Or.inl ((mkeys_minsert _ kv.1 kv.2 k).mpr (Or.inl h))
          · rcases (by simpa [mkeys] using h : k = kv.1 ∨ k ∈ mkeys t)
              with he | ht
            · exact Or.inl ((mkeys_minsert _ kv.1 kv.2 k).mpr (Or.inr he))
            · exact Or.inr ht
  exact gen newRxns _

/-- C3: the content of the network after one generation's merge is invariant
to worker count and completion order — merging the per-compound deltas in
any order (the serial single-worker order, or any completion order of the
parallel workers' `imap_unordered`) and folding the result into the same
network yields identical final compound id sets and reaction id sets. -/
theorem c3_merge_order_invariant (st : NetState) (deltas deltas2 : List Delta)
    (hperm : deltas.Perm deltas2) :
    (mkeys (update_cpds_rxns st (mergeDeltas deltas).1
        (mergeDeltas deltas).2).compounds).toFinset
      = (mkeys (update_cpds_rxns st (mergeDeltas deltas2).1
          (mergeDeltas deltas2).2).compounds).toFinset
    ∧ (mkeys (update_cpds_rxns st (mergeDeltas deltas).1
        (mergeDeltas deltas).2).reactions).toFinset
      = (mkeys (update_cpds_rxns st (mergeDeltas deltas2).1
          (mergeDeltas deltas2).2).reactions).toFinset := by
  constructor
  · ext k
    simp only [List.mem_toFinset]
    rw [update_cpds_rxns_compounds_keys, update_cpds_rxns_compounds_keys,
      (mem_mkeys_mergeDeltas deltas k).1, (mem_mkeys_mergeDeltas deltas2 k).1]
    constructor
    · rintro (h | ⟨d, hd, hk⟩)
      · exact Or.inl h
      · exact Or.inr ⟨d, hperm.mem_iff.mp hd, hk⟩
    · rintro (h | ⟨d, hd, hk⟩)
      · exact Or.inl h
      · exact Or.inr ⟨d, hperm.mem_iff.mpr hd, hk⟩
  · ext k
    simp only [List.mem_toFinset]
    rw [update_cpds_rxns_reactions_keys, update_cpds_rxns_reactions_keys,
      (mem_mkeys_mergeDeltas deltas k).2, (mem_mkeys_mergeDeltas deltas2 k).2]
    constructor
    · rintro (h | ⟨d, hd, hk⟩)
      · exact Or.inl h
      · exact Or.inr ⟨d, hperm.mem_iff.mp hd, hk⟩
    · rintro (h | ⟨d, hd, hk⟩)
      · exact Or.inl h
      · exact Or.inr ⟨d, hperm.mem_iff.mpr hd, hk⟩

/-- C3 witness: the two concrete deltas of C1 merged in either order give
the same compound and reaction id sets. -/
theorem c3_merge_order_invariant_witness :
    (mkeys (update_cpds_rxns ⟨[("CaPredicted", cpdA)], []⟩
        (mergeDeltas [deltaRule1, deltaRule2]).1
        (mergeDeltas [deltaRule1, deltaRule2]).2).compounds).toFinset
      = (mkeys (update_cpds_rxns ⟨[("CaPredicted", cpdA)], []⟩
          (mergeDeltas [deltaRule2, deltaRule1]).1
          (mergeDeltas [deltaRule2, deltaRule1]).2).compounds).toFinset
    ∧ (mkeys (update_cpds_rxns ⟨[("CaPredicted", cpdA)], []⟩
        (mergeDeltas [deltaRule1, deltaRule2]).1
        (mergeDeltas [deltaRule1, deltaRule2]).2).reactions).toFinset
      = (mkeys (update_cpds_rxns ⟨[("CaPredicted", cpdA)], []⟩
          (mergeDeltas [deltaRule2, deltaRule1]).1
          (mergeDeltas [deltaRule2, deltaRule1]).2).reactions).toFinset :=
  c3_merge_order_invariant ⟨[("CaPredicted", cpdA)], []⟩
    [deltaRule1, deltaRule2] [deltaRule2, deltaRule1] (List.Perm.swap _ _ _)

/-! ## C4: compound re-insertion is an identity-preserving no-op merge -/

/-- The subset of `Pickaxe` state that `_add_compound` touches:
`self.compounds`, `self._raw_compounds` and `self.generation`. -/
structure PickaxeSt where
  compounds : Map Cpd
  rawCompounds : Map String
  generation : Nat
  deriving DecidableEq

/-- `Pickaxe._gen_compound`'s dictionary construction (lines 384-398) for a
resolved molecule: `Expand` is true exactly for the Predicted and Starting
Compound types, `Generation` is the current generation counter. -/
def pickaxeCpdDict {Mol : Type} (tk : Toolkit Mol) (st : PickaxeSt)
    (cpdName : String) (smi : String) (cpdType : String) (cpdId : String)
    (mol : Mol) : Cpd :=
  { name := some cpdName, cid := cpdId, smiles := smi, ctype := cpdType,
    generation := st.generation,
    atomCount := tk.atomCount mol,
    reactantIn := [], productOf := [],
    expand := cpdType == "Predicted" || cpdType == "Starting Compound",
    formula := tk.molFormula mol, lastTani := 0 }

/-- `Pickaxe._add_compound` (lines 426-439) with the parts of
`_gen_compound` (lines 375-404) and `_insert_compound` (lines 406-409) it
invokes: hash the SMILES, record it in `_raw_compounds`, and only when the
id is not yet in the compound store build the dictionary (parsing the
SMILES when no molecule object was supplied; the source would raise on a
parse failure, modelled as inserting nothing) and insert it.  An id already
present leaves the compound store untouched. -/
def addCompound {Mol : Type} (parse : String → Option Mol) (tk : Toolkit Mol)
    (st : PickaxeSt) (cpdName : String) (smi : String) (cpdType : String)
    (mol? : Option Mol) : Option String × PickaxeSt :=
  match tk.compoundHash smi cpdType with
  | none => (none, st)
  | some cpdId =>
    let st1 : PickaxeSt :=
      { st with rawCompounds := minsert st.rawCompounds smi cpdId }
    if mcontains st1.compounds cpdId then (some cpdId, st1)
    else
      match mol? with
      | some m =>
        let d := pickaxeCpdDict tk st cpdName smi cpdType cpdId m
        (some cpdId, { st1 with compounds := minsert st1.compounds cpdId d })
      | none =>
        match parse smi with
        | some m =>
          let d := pickaxeCpdDict tk st cpdName smi cpdType cpdId m
          (some cpdId, { st1 with compounds := minsert st1.compounds cpdId d })
        | none => (some cpdId, st1)

/-- Every compound of the first store is still present in the second with
all identity fields unchanged; only the two accumulating back-reference
lists may have grown. -/
def CpdPreserved (m m2 : Map Cpd) : Prop :=
  ∀ k c, mlookup m k = some c → ∃ ri po,
    mlookup m2 k = some { c with reactantIn := ri, productOf := po } ∧
    c.reactantIn.Sublist ri ∧ c.productOf.Sublist po

theorem cpdPreserved_refl (m : Map Cpd) : CpdPreserved m m := by
  intro k c h
  exact ⟨c.reactantIn, c.productOf, h, List.Sublist.refl _, List.Sublist.refl _⟩

theorem cpdPreserved_trans {m1 m2 m3 : Map Cpd} (h12 : CpdPreserved m1 m2)
    (h23 : CpdPreserved m2 m3) : CpdPreserved m1 m3 := by
  intro k c h
  rcases h12 k c h with ⟨ri, po, hl, hri, hpo⟩
  rcases h23 k _ hl with ⟨ri2, po2, hl2, hri2, hpo2⟩
  exact ⟨ri2, po2, hl2, hri.trans hri2, hpo.trans hpo2⟩

theorem cpdPreserved_insert_fold (l : Map Cpd) (m : Map Cpd) :
    CpdPreserved m (l.foldl
      (fun acc kv => if mcontains acc kv.1 then acc else minsert acc kv.1 kv.2)
      m) := by
  induction l generalizing m with
  | nil => exact cpdPreserved_refl m
  | cons kv t ih =>
    rw [List.foldl_cons]
    refine cpdPreserved_trans ?_ (ih _)
    by_cases hc : mcontains m kv.1
    · rw [if_pos hc]
      exact cpdPreserved_refl m
    · rw [if_neg hc]
      intro k c h
      have hk : k ≠ kv.1 := by
        intro he
        subst he
        simp [mcontains, h] at hc
      refine ⟨c.reactantIn, c.productOf, ?_, List.Sublist.refl _,
        List.Sublist.refl _⟩
      rw [mlookup_minsert_ne _ _ _ _ hk]
      exact h

theorem cpdPreserved_mmodify (m : Map Cpd) (key : String) (f : Cpd → Cpd)
    (hf : ∀ c, ∃ ri po, f c = { c with reactantIn := ri, productOf := po } ∧
      c.reactantIn.Sublist ri ∧ c.productOf.Sublist po) :
    CpdPreserved m (mmodify m key f) := by
  intro k c h
  by_cases hk : k = key
  · subst hk
    rcases hf c with ⟨ri, po, hfc, hri, hpo⟩
    refine ⟨ri, po, ?_, hri, hpo⟩
    rw [mlookup_mmodify_self, h]
    simp [hfc]
  · refine ⟨c.reactantIn, c.productOf, ?_, List.Sublist.refl _,
      List.Sublist.refl _⟩
    rw [mlookup_mmodify_ne _ _ _ _ hk]
    exact h

theorem cpdPreserved_addRxnRefs (st : NetState) (rid : String) (r : Rxn) :
    CpdPreserved st.compounds (addRxnRefs st rid r).compounds := by
  have gen : ∀ (l : List (Nat × String)) (m : Map Cpd) (f : Cpd → Cpd),
      (∀ c, ∃ ri po, f c = { c with reactantIn := ri, productOf := po } ∧
        c.reactantIn.Sublist ri ∧ c.productOf.Sublist po) →
      CpdPreserved m (l.foldl
        (fun m p => if hasTag p.2 'C' then mmodify m p.2 f else m) m) := by
    intro l
    induction l with
    | nil => intro m f _; exact cpdPreserved_refl m
    | cons p t ih =>
      intro m f hf
      rw [List.foldl_cons]
      refine cpdPreserved_trans ?_ (ih _ f hf)
      by_cases hp : hasTag p.2 'C'
      · rw [if_pos hp]
        exact cpdPreserved_mmodify m p.2 f hf
      · rw [if_neg hp]
        exact cpdPreserved_refl m
  simp only [addRxnRefs]
  refine cpdPreserved_trans (gen r.products st.compounds _ ?_)
    (gen r.reactants _ _ ?_)
  · intro c
    by_cases hm : rid ∈ c.productOf
    · exact ⟨c.reactantIn, c.productOf, by simp [hm], List.Sublist.refl _,
        List.Sublist.refl _⟩
    · exact ⟨c.reactantIn, c.productOf ++ [rid], by simp [hm],
        List.Sublist.refl _, List.sublist_append_left _ _⟩
  · intro c
    by_cases hm : rid ∈ c.reactantIn
    · exact ⟨c.reactantIn, c.productOf, by simp [hm], List.Sublist.refl _,
        List.Sublist.refl _⟩
    · exact ⟨c.reactantIn ++ [rid], c.productOf, by simp [hm],
        List.sublist_append_left _ _, List.Sublist.refl _⟩

theorem cpdPreserved_update_cpds_rxns (st : NetState) (newCpds : Map Cpd)
    (newRxns : Map Rxn) :
    CpdPreserved st.compounds (update_cpds_rxns st newCpds newRxns).compounds := by
  rw [update_cpds_rxns]
  have gen : ∀ (l : Map Rxn) (st0 : NetState),
      CpdPreserved st0.compounds (l.foldl
        (fun st kv =>
          let rxns2 :=
            if mcontains st.reactions kv.1 then
              mmodify st.reactions kv.1 (fun r =>
                let r1 := { r with operators := r.operators ∪ kv.2.operators }
                match r1.partOps, kv.2.partOps with
                | some p, some q => { r1 with partOps := some (p ∪ q) }
                | _, _ => r1)
            else minsert st.reactions kv.1 kv.2
          addRxnRefs { st with reactions := rxns2 } kv.1 kv.2)
        st0).compounds := by
    intro l
    induction l with
    | nil => intro st0; exact cpdPreserved_refl _
    | cons kv t ih =>
      intro st0
      rw [List.foldl_cons]
      refine cpdPreserved_trans ?_ (ih _)
      exact cpdPreserved_addRxnRefs _ kv.1 kv.2
  exact cpdPreserved_trans (cpdPreserved_insert_fold newCpds st.compounds)
    (gen newRxns
      { compounds := List.foldl
          (fun m kv => if mcontains m kv.1 then m else minsert m kv.1 kv.2)
          st.compounds newCpds,
        reactions := st.reactions })

/-- C4: inserting a compound whose (structure, role-class) hash is already
present leaves the compound store of `Pickaxe._add_compound` completely
unchanged — in particular the stored `_id`, `SMILES` and `Generation` — and
the per-generation merge `update_cpds_rxns` likewise keeps every existing
compound record's identity fields, growing only the accumulating
`Reactant_in`/`Product_of` back-reference lists. -/
theorem c4_reinsert_preserves_identity {Mol : Type}
    (parse : String → Option Mol) (tk : Toolkit Mol) (st : PickaxeSt)
    (cpdName smi cpdType : String) (mol? : Option Mol) (cpdId : String)
    (hh : tk.compoundHash smi cpdType = some cpdId)
    (hc : mcontains st.compounds cpdId = true)
    (net : NetState) (newCpds : Map Cpd) (newRxns : Map Rxn) :
    (addCompound parse tk st cpdName smi cpdType mol?).2.compounds
        = st.compounds
    ∧ CpdPreserved net.compounds
        (update_cpds_rxns net newCpds newRxns).compounds := by
  constructor
  · rw [addCompound, hh]
    simp only [hc, if_pos]
  · exact cpdPreserved_update_cpds_rxns net newCpds newRxns

/-- C4 witness: re-inserting the already-present compound `cpdA` (same
SMILES "a" and type, hence the same hash) leaves a concrete compound store
unchanged, and a concrete merge preserves it. -/
theorem c4_reinsert_preserves_identity_witness :
    tkW.compoundHash "a" "Predicted" = some "CaPredicted" ∧
    mcontains [("CaPredicted", cpdA)] "CaPredicted" = true ∧
    (addCompound (fun s => some s) tkW ⟨[("CaPredicted", cpdA)], [], 3⟩
        "x" "a" "Predicted" none).2.compounds = [("CaPredicted", cpdA)] ∧
    CpdPreserved [("CaPredicted", cpdA)]
      (update_cpds_rxns ⟨[("CaPredicted", cpdA)], []⟩ [] []).compounds := by
  have h := c4_reinsert_preserves_identity (fun s => some s) tkW
    ⟨[("CaPredicted", cpdA)], [], 3⟩ "x" "a" "Predicted" none "CaPredicted"
    (by decide) (by decide) ⟨[("CaPredicted", cpdA)], []⟩ [] []
  exact ⟨by decide, by decide, h.1, h.2⟩

/-! ## C5: similarity filtering — `_compare_target_fps` (lines 1453-1472)
and the score-application loop of `_filter_by` (lines 856-866) -/

/-- `_compare_target_fps` (lines 1453-1472), parameterized by the
similarity scores of one compound against each target, in target order
(fingerprinting is external): the loop returns the compound id with the
FIRST score at or above the threshold, or -1 when none reaches it. -/
def compareTargetFps (scores : List ℚ) (critTani : ℚ) (cid : String) :
    String × ℚ :=
  match scores.find? (fun t => decide (critTani ≤ t)) with
  | some t => (cid, t)
  | none => (cid, -1)

/-- One iteration of the score-application loop of `_filter_by` (lines
856-866): a -1 result clears `Expand`; otherwise, in Tanimoto mode with
`increasing_tani` set, a score at or above the stored `last_tani` updates
the stored value, and a score strictly below it clears `Expand`, leaving
`last_tani` unchanged.  (An id absent from the store would raise a
`KeyError` in the source; the loop only ever receives ids of stored
compounds.) -/
def applyFilterStep (increasingTani : Bool) (isTani : Bool)
    (compounds : Map Cpd) (res : String × ℚ) : Map Cpd :=
  if res.2 = -1 then
    mmodify compounds res.1 (fun c => { c with expand := false })
  else if isTani && increasingTani then
    match mlookup compounds res.1 with
    | none => compounds
    | some c =>
      if c.lastTani ≤ res.2 then
        mmodify compounds res.1 (fun c0 => { c0 with lastTani := res.2 })
      else
        mmodify compounds res.1 (fun c0 => { c0 with expand := false })
  else compounds

/-- The score-application loop of `_filter_by` (lines 856-866). -/
def applyFilterResults (increasingTani isTani : Bool)
    (compounds : Map Cpd) (results : List (String × ℚ)) : Map Cpd :=
  results.foldl (applyFilterStep increasingTani isTani) compounds

/-- A generation-1 predicted compound with stored `last_tani` 7. -/
def cpdT : Cpd :=
  { name := none, cid := "Ct", smiles := "t", ctype := "Predicted",
    generation := 1, atomCount := [], reactantIn := [], productOf := [],
    expand := true, formula := "t", lastTani := 7 }

/-- C5 counterexample: with target scores [6, 9], threshold 5 and stored
`last_tani` 7, the compound's best score 9 is at or above both the
threshold and the stored value, so the claim requires the stored value to
become 9 and the compound to stay expandable; but `_compare_target_fps`
returns the FIRST passing score 6, which is below the stored 7, so the code
clears `Expand` and leaves `last_tani` at 7. -/
theorem c5_best_score_counterexample :
    ((9:ℚ) ∈ ([6, 9] : List ℚ) ∧ ∀ s ∈ ([6, 9] : List ℚ), s ≤ 9)
    ∧ (5:ℚ) ≤ 9 ∧ (7:ℚ) ≤ 9
    ∧ compareTargetFps [6, 9] 5 "Ct" = ("Ct", 6)
    ∧ (mlookup (applyFilterResults true true [("Ct", cpdT)]
        [compareTargetFps [6, 9] 5 "Ct"]) "Ct").map Cpd.expand = some false
    ∧ (mlookup (applyFilterResults true true [("Ct", cpdT)]
        [compareTargetFps [6, 9] 5 "Ct"]) "Ct").map Cpd.lastTani = some 7 := by
  refine ⟨⟨?_, ?_⟩, ?_, ?_, ?_, ?_, ?_⟩ <;> decide

/-- C5 (amended): the score the filter applies is the FIRST target
similarity at or above the generation's threshold, in target order (not the
best one).  For a compound whose first passing score `v` is at or above the
stored `last_tani`, the stored value is updated to `v` and the `Expand`
flag is untouched (the compound stays expandable); if `v` is strictly below
the stored value, `Expand` is cleared and `last_tani` is left unchanged. -/
theorem c5_increasing_tani_update (scores : List ℚ) (critTani : ℚ)
    (cid : String) (compounds : Map Cpd) (c : Cpd) (v : ℚ)
    (hl : mlookup compounds cid = some c)
    (hres : compareTargetFps scores critTani cid = (cid, v))
    (hv : v ≠ -1) :
    critTani ≤ v
    ∧ (c.lastTani ≤ v →
        mlookup (applyFilterStep true true compounds (cid, v)) cid
          = some { c with lastTani := v })
    ∧ (v < c.lastTani →
        mlookup (applyFilterStep true true compounds (cid, v)) cid
          = some { c with expand := false }) := by
  have hcrit : critTani ≤ v := by
    rw [compareTargetFps] at hres
    cases hf : scores.find? (fun t => decide (critTani ≤ t)) with
    | none =>
      rw [hf] at hres
      simp at hres
      exact absurd hres.symm hv
    | some t =>
      rw [hf] at hres
      simp at hres
      have := List.find?_some hf
      rw [← hres]
      exact of_decide_eq_true this
  refine ⟨hcrit, ?_, ?_⟩
  · intro hle
    simp [applyFilterStep, hv, hl, hle, mlookup_mmodify_self]
  · intro hlt
    have hnle : ¬ c.lastTani ≤ v := not_le.mpr hlt
    simp [applyFilterStep, hv, hl, hnle, mlookup_mmodify_self]

/-- C5 witness: applying the amended theorem at the concrete input of the
counterexample — first passing score 6, threshold 5, stored value 7. -/
theorem c5_increasing_tani_update_witness :
    (5:ℚ) ≤ 6
    ∧ mlookup (applyFilterStep true true [("Ct", cpdT)] ("Ct", 6)) "Ct"
        = some { cpdT with expand := false } :=
  have h := c5_increasing_tani_update [6, 9] 5 "Ct" [("Ct", cpdT)] cpdT 6
    (by decide) (by decide) (by decide)
  ⟨h.1, h.2.2 (by decide)⟩

/-! ## C7: `_load_operators` (lines 292-336) -/

/-- One parsed row of the rule TSV (the `Reactants`/`Products` cells
already split on ';'). -/
structure RuleRow where
  name : String
  reactantRoles : List String
  productRoles : List String
  smarts : String
  deriving DecidableEq

/-- The arity data of a compiled SMARTS reaction template
(`GetNumReactantTemplates` / `GetNumProductTemplates`). -/
structure RxnTemplate where
  numReactantTemplates : Nat
  numProductTemplates : Nat
  deriving DecidableEq

/-- An operator-table entry: the compiled template, the rule row, and the
`Reactions_predicted` counter (0 at load). -/
structure OperatorRec where
  template : RxnTemplate
  row : RuleRow
  reactionsPredicted : Nat
  deriving DecidableEq

/-- One iteration of `_load_operators` (lines 303-334): an undeclared
coreactant name or an unparsable SMARTS raises (fatal — re-raised as
`ValueError` by the per-rule handler at lines 333-334), a duplicate rule
name raises, but a mismatch between the template's arity and the rule's
role-list lengths only increments the `skipped` counter and prints a
warning (lines 322-328) — the mismatched rule is still stored in the
operator table (line 332) and loading continues. -/
def loadOneOperator (parseSmarts : String → Option RxnTemplate)
    (coreactantNames : List String) (acc : Map OperatorRec × Nat)
    (row : RuleRow) : Except String (Map OperatorRec × Nat) :=
  let allRoles := row.reactantRoles ++ row.productRoles
  if ¬ allRoles.all (fun r => r == "Any" || coreactantNames.contains r) then
    .error "Undefined coreactant"
  else
    match parseSmarts row.smarts with
    | none => .error "Failed to parse"
    | some rxn =>
      let skipped :=
        if rxn.numReactantTemplates ≠ row.reactantRoles.length
            ∨ rxn.numProductTemplates ≠ row.productRoles.length
        then acc.2 + 1 else acc.2
      if mcontains acc.1 row.name then .error "Duplicate reaction rule name"
      else .ok
        (minsert acc.1 row.name
          { template := rxn, row := row, reactionsPredicted := 0 }, skipped)

/-- `_load_operators` (lines 292-336): fold the per-row loader over the
rule file; the first raised error aborts the whole load. -/
def loadOperators (parseSmarts : String → Option RxnTemplate)
    (coreactantNames : List String) (rows : List RuleRow) :
    Except String (Map OperatorRec × Nat) :=
  rows.foldlM (loadOneOperator parseSmarts coreactantNames) ([], 0)

/-- A rule declaring one reactant role and one product role. -/
def ruleRowMismatch : RuleRow :=
  { name := "r1", reactantRoles := ["Any"], productRoles := ["Any"],
    smarts := "s" }

/-- A SMARTS parser whose template has two reactant templates and one
product template — an arity mismatch against `ruleRowMismatch`. -/
def parseSmartsW : String → Option RxnTemplate := fun _ => some ⟨2, 1⟩

/-- The operator-table entry `_load_operators` stores for
`ruleRowMismatch`. -/
def opRecMismatch : OperatorRec :=
  { template := ⟨2, 1⟩, row := ruleRowMismatch, reactionsPredicted := 0 }

/-- C7 counterexample: loading a rule file whose single rule declares one
reactant role while its compiled template has two reactant templates
SUCCEEDS — no error is raised, the load is not aborted, and the mismatched
rule IS stored in the operator table; only the `skipped` warning counter is
incremented. -/
theorem c7_arity_mismatch_not_fatal_counterexample :
    loadOperators parseSmartsW [] [ruleRowMismatch]
      = .ok ([("r1", opRecMismatch)], 1) := rfl

/-- C7 (amended): a rule whose declared role-list lengths disagree with its
template's arity is NOT a load-time fatal error: provided its coreactant
names are declared, its SMARTS parses, and its name is fresh, the row loads
successfully, the mismatch only increments the `skipped` warning counter,
and the mismatched rule IS stored in the operator table.  (Undeclared
coreactants, unparsable SMARTS and duplicate names remain fatal.) -/
theorem c7_arity_mismatch_warns_and_stores
    (parseSmarts : String → Option RxnTemplate)
    (coreactantNames : List String) (acc : Map OperatorRec × Nat)
    (row : RuleRow) (rxn : RxnTemplate)
    (hroles : (row.reactantRoles ++ row.productRoles).all
        (fun r => r == "Any" || coreactantNames.contains r) = true)
    (hparse : parseSmarts row.smarts = some rxn)
    (hfresh : mcontains acc.1 row.name = false)
    (hmis : rxn.numReactantTemplates ≠ row.reactantRoles.length
      ∨ rxn.numProductTemplates ≠ row.productRoles.length) :
    loadOneOperator parseSmarts coreactantNames acc row
      = .ok (minsert acc.1 row.name { template := rxn, row := row, reactionsPredicted := 0 }, acc.2 + 1) := by
  simp only [loadOneOperator]
  rw [if_neg (not_not_intro hroles), hparse]
  simp [hfresh, hmis]

/-- C7 witness: the amended theorem applied at the concrete mismatched
rule. -/
theorem c7_arity_mismatch_warns_and_stores_witness :
    loadOneOperator parseSmartsW [] ([], 0) ruleRowMismatch
      = .ok ([("r1", opRecMismatch)], 1) :=
  c7_arity_mismatch_warns_and_stores parseSmartsW [] ([], 0) ruleRowMismatch
    ⟨2, 1⟩ (by decide) rfl (by decide) (by decide)

/-! ## C8: fragmented products — `_run_reaction._gen_compound` (line 1606)
versus `Pickaxe._mol_from_dict` (lines 362-368) -/

/-- The loading-side capabilities `_mol_from_dict` consumes:
`MolFromInchi`/`MolFromSmiles`, `len(AllChem.GetMolFrags(mol))`, and
`utils.neutralise_charges`. -/
structure LoadToolkit (Mol : Type) where
  parse : String → Option Mol
  numFrags : Mol → Nat
  neutraliseCharges : Mol → Mol

/-- `Pickaxe._mol_from_dict` (lines 350-373) from the resolved structure
text on: parse the text (nothing on failure), reject a disconnected
molecule when `fragmented_mols` is disabled, then optionally neutralise
charges.  (The structure-field detection of lines 339-348 is caller-side
dictionary plumbing and is elided.) -/
def molFromDict {Mol : Type} (ltk : LoadToolkit Mol)
    (fragmentedMols : Bool) (neutralise : Bool) (text : String) :
    Option Mol :=
  match ltk.parse text with
  | none => none
  | some mol =>
    if ¬ fragmentedMols ∧ 1 < ltk.numFrags mol then none
    else some (if neutralise then ltk.neutraliseCharges mol else mol)

/-- A toolkit whose canonical product SMILES is the two-fragment "C.C". -/
def tkFrag : Toolkit String :=
  { prepProduct := fun _ m => some m,
    molToSmiles := fun _ => "C.C",
    atomCount := fun _ => [("C", 2)],
    molFormula := fun _ => "C2",
    compoundHash := fun s t => some ("C" ++ s ++ t),
    rxn2hash := fun _ _ => ("R1", "rxn") }

/-- C8 counterexample: a candidate product whose canonical SMILES is the
disconnected "C.C" is rejected by `_run_reaction._gen_compound`
unconditionally — the function never consults `fragmented_mols` (the flag
is read only by `_mol_from_dict` during compound/target loading; note the
embedded `rrGenCompound` takes no such flag because the source reads none),
so the claim's "accepted as a single multi-fragment product when the flag
is enabled" is false: the candidate is rejected whatever the flag says. -/
theorem c8_fragmented_product_always_rejected_counterexample :
    rrGenCompound tkFrag true 0 [] "m" = none ∧ hasDot "C.C" = true := by
  constructor <;> rfl

/-- C8 (amended): during rule application a candidate product whose
canonical SMILES is multi-fragment is rejected unconditionally —
`fragmented_mols` does not appear in `_run_reaction`; the flag gates only
compound loading in `_mol_from_dict`, where a disconnected molecule is
rejected with the flag disabled and accepted with it enabled. -/
theorem c8_fragmented_gate {Mol : Type} (tk : Toolkit Mol) (explicitH : Bool)
    (generation : Nat) (localCpds : Map Cpd) (mol m : Mol)
    (hprep : tk.prepProduct explicitH mol = some m)
    (hdot : hasDot (tk.molToSmiles m) = true)
    (ltk : LoadToolkit Mol) (neutralise : Bool) (text : String) (lm : Mol)
    (hparse : ltk.parse text = some lm) (hfr : 1 < ltk.numFrags lm) :
    rrGenCompound tk explicitH generation localCpds mol = none
    ∧ molFromDict ltk false neutralise text = none
    ∧ (molFromDict ltk true neutralise text).isSome = true := by
  refine ⟨?_, ?_, ?_⟩
  · rw [rrGenCompound, hprep]
    simp [hdot]
  · rw [molFromDict, hparse]
    simp [hfr]
  · rw [molFromDict, hparse]
    simp

/-- A concrete loading toolkit over `Mol := String`, counting fragments as
one more than the number of '.' separators. -/
def ltkW : LoadToolkit String :=
  { parse := fun s => some s,
    numFrags := fun s => s.data.count '.' + 1,
    neutraliseCharges := id }

/-- C8 witness: the amended theorem applied at the concrete "C.C" input. -/
theorem c8_fragmented_gate_witness :
    rrGenCompound tkFrag true 0 [] "m" = none
    ∧ molFromDict ltkW false false "C.C" = none
    ∧ (molFromDict ltkW true false "C.C").isSome = true :=
  c8_fragmented_gate tkFrag true 0 [] "m" "m" rfl (by decide)
    ltkW false "C.C" "C.C" rfl (by decide)

/-! ## Concrete state builders shared by the network-level claims -/

/-- A minimal compound record for concrete states. -/
def mkCpd (cid : String) (ri po : List String) : Cpd :=
  { name := none, cid := cid, smiles := cid, ctype := "Predicted",
    generation := 1, atomCount := [], reactantIn := ri, productOf := po,
    expand := true, formula := "", lastTani := 0 }

/-- A minimal reaction record for concrete states. -/
def mkRxn (rid : String) (rs ps : List (Nat × String)) : Rxn :=
  { rid := rid, reactants := rs, products := ps, operators := {"rule1"},
    partOps := none, smilesRxn := "txt" }

/-! ## C9: `remove_cofactor_redundancy` (lines 634-722) -/

/-- The per-reaction correction of `remove_cofactor_redundancy` (lines
652-715): replace every cofactor-duplicate compound id by its
coreactant-side ('X') counterpart, recompute the reaction hash, and either
union the operators into the pre-existing corrected reaction while
removing the old id from the generated participants' logs, or insert the
corrected record, appending the new id and removing the old one in the
logs.  (A reaction or compound id missing from the stores would raise a
`KeyError` in the source; modelled as leaving the state unchanged.) -/
def fixRxn (rxn2hash : List (Nat × Cpd) → List (Nat × Cpd) → String × String)
    (cofactorsAsCpds : List String) (st : NetState) (rxnId : String) :
    NetState :=
  match mlookup st.reactions rxnId with
  | none => st
  | some rxn =>
    let swap : String → String := fun cid =>
      if cofactorsAsCpds.contains cid then xVariant cid else cid
    let getHalf : List (Nat × String) → Option (List (Nat × Cpd)) :=
      fun l => l.mapM (fun p => (mlookup st.compounds (swap p.2)).map
        (fun c => (p.1, c)))
    match getHalf rxn.reactants, getHalf rxn.products with
    | some reactants, some products =>
      let hashed := rxn2hash reactants products
      if mcontains st.reactions hashed.1 then
        let reactions2 := mmodify st.reactions hashed.1 (fun r0 =>
          { r0 with operators := r0.operators ∪ rxn.operators })
        let comps1 := rxn.reactants.foldl (fun m p =>
          if hasTag p.2 'C' then
            mmodify m p.2 (fun c =>
              if rxnId ∈ c.reactantIn then
                { c with reactantIn := c.reactantIn.erase rxnId }
              else c)
          else m) st.compounds
        let comps2 := rxn.products.foldl (fun m p =>
          if hasTag p.2 'C' then
            mmodify m p.2 (fun c =>
              if rxnId ∈ c.productOf then
                { c with productOf := c.productOf.erase rxnId }
              else c)
          else m) comps1
        { compounds := comps2, reactions := reactions2 }
      else
        let newRxn : Rxn :=
          { rid := hashed.1,
            reactants := reactants.map (fun p => (p.1, p.2.cid)),
            products := products.map (fun p => (p.1, p.2.cid)),
            operators := rxn.operators,
            partOps := rxn.partOps.bind
              (fun q => if q = ∅ then none else some q),
            smilesRxn := hashed.2 }
        let reactions2 := minsert st.reactions hashed.1 newRxn
        let comps1 := rxn.reactants.foldl (fun m p =>
          if hasTag p.2 'C' then
            mmodify m p.2 (fun c =>
              let c1 := { c with reactantIn := c.reactantIn ++ [hashed.1] }
              if rxnId ∈ c1.reactantIn then
                { c1 with reactantIn := c1.reactantIn.erase rxnId }
              else c1)
          else m) st.compounds
        let comps2 := rxn.products.foldl (fun m p =>
          if hasTag p.2 'C' then
            mmodify m p.2 (fun c =>
              let c1 := { c with productOf := c.productOf ++ [hashed.1] }
              if rxnId ∈ c1.productOf then
                { c1 with productOf := c1.productOf.erase rxnId }
              else c1)
          else m) comps1
        { compounds := comps2, reactions := reactions2 }
    | _, _ => st

/-- `remove_cofactor_redundancy` (lines 634-722): identify generated ('C')
compounds whose coreactant-side id is a known cofactor id, correct every
reaction logged on each of them, and finally delete `rxns_to_del` and the
duplicate compound records.  The accumulator `rxns` declared at line 646 is
never updated, so `rxns_to_del = rxns.union(rxn_ids)` (line 650) holds only
the LAST processed compound's reaction-id set, and the deletion pass runs
only when that last set is non-empty (`if rxns_to_del:`).  (Python set
iteration order is unspecified; each compound's reaction-id set is modelled
as the deduplicated `Product_of ++ Reactant_in` list, and
`cofactors_as_cpds` in compound-store order.) -/
def removeCofactorRedundancy
    (rxn2hash : List (Nat × Cpd) → List (Nat × Cpd) → String × String)
    (coreactantIds : List String) (st : NetState) : NetState :=
  let cofactorsAsCpds := (mkeys st.compounds).filter (fun cid =>
    coreactantIds.contains (xVariant cid) && hasTag cid 'C')
  let looped := cofactorsAsCpds.foldl
    (fun (acc : NetState × Option (List String)) cpdId =>
      match mlookup acc.1.compounds cpdId with
      | none => acc
      | some c =>
        let rxnIds := (c.productOf ++ c.reactantIn).dedup
        (rxnIds.foldl (fixRxn rxn2hash cofactorsAsCpds) acc.1, some rxnIds))
    (st, none)
  match looped.2 with
  | some rxnIds =>
    if rxnIds.isEmpty then looped.1
    else
      let reactions2 := rxnIds.foldl merase looped.1.reactions
      let compounds2 := cofactorsAsCpds.foldl merase looped.1.compounds
      { compounds := compounds2, reactions := reactions2 }
  | none => looped.1

/-- A concrete reaction hash: first reactant id and first product id. -/
def rxn2hashC : List (Nat × Cpd) → List (Nat × Cpd) → String × String :=
  fun rs ps =>
    ("R" ++ ((rs.head?.map (fun p => p.2.cid)).getD "") ++ ">"
      ++ ((ps.head?.map (fun p => p.2.cid)).getD ""), "txt")

/-- A state with two cofactor-duplicate compounds Caaa and Cbbb, each
logged on its own reaction (r1: Caaa -> Cqqq, r2: Cbbb -> Cwww), plus the
canonical coreactant records Xaaa and Xbbb. -/
def st9 : NetState :=
  { compounds :=
      [("Caaa", mkCpd "Caaa" ["r1"] []), ("Cbbb", mkCpd "Cbbb" ["r2"] []),
        ("Xaaa", mkCpd "Xaaa" [] []), ("Xbbb", mkCpd "Xbbb" [] []),
        ("Cqqq", mkCpd "Cqqq" [] ["r1"]), ("Cwww", mkCpd "Cwww" [] ["r2"])],
    reactions :=
      [("r1", mkRxn "r1" [(1, "Caaa")] [(1, "Cqqq")]),
        ("r2", mkRxn "r2" [(1, "Cbbb")] [(1, "Cwww")])] }

/-- C9: evaluating the code at the failing input — two cofactor-duplicate
compounds with disjoint reaction logs.  Because the `rxns` accumulator is
never updated, `rxns_to_del` ends up holding only the last compound's
reaction ids: the original reaction r1 (referencing the duplicate Caaa)
SURVIVES in the reaction store, while r2 is deleted and both duplicate
compound records are deleted — so a surviving original reaction still
references a deleted compound, contradicting the claim that every original
reaction referencing such a compound is removed. -/
theorem c9_only_last_compound_reactions_deleted :
    mcontains (removeCofactorRedundancy rxn2hashC ["Xaaa", "Xbbb"]
      st9).reactions "r1" = true
    ∧ mcontains (removeCofactorRedundancy rxn2hashC ["Xaaa", "Xbbb"]
      st9).reactions "r2" = false
    ∧ mcontains (removeCofactorRedundancy rxn2hashC ["Xaaa", "Xbbb"]
      st9).compounds "Caaa" = false
    ∧ (mlookup (removeCofactorRedundancy rxn2hashC ["Xaaa", "Xbbb"]
      st9).reactions "r1").map Rxn.reactants = some [(1, "Caaa")] := by
  refine ⟨?_, ?_, ?_, ?_⟩ <;> decide

/-! ## C10: `find_minimal_set` (lines 1016-1048) and `prune_network`
(lines 953-970) -/

/-- The worklist state of `find_minimal_set`: the remaining whitelist, the
whitelist set, and the accumulated compound and reaction id sets. -/
structure FmsAcc where
  worklist : List String
  white : Finset String
  comps : Finset String
  rxns : Finset String

/-- The per-whitelisted-compound body of `find_minimal_set` (lines
1031-1040): for every reaction producing the compound, add the reaction id
to the reaction set, all its product ids and reactant ids to the compound
set, and append each not-yet-whitelisted generated ('C') reactant to the
growing whitelist.  (A reaction id missing from the store would raise a
`KeyError`; skipped here.) -/
def fmsProcessCpd (reactions : Map Rxn) (c : Cpd) (acc : FmsAcc) : FmsAcc :=
  c.productOf.foldl
    (fun acc rxnId =>
      match mlookup reactions rxnId with
      | none => acc
      | some r =>
        let rxns2 := insert rxnId acc.rxns
        let comps2 := r.products.foldl (fun s p => insert p.2 s) acc.comps
        r.reactants.foldl
          (fun acc2 p =>
            let comps3 := insert p.2 acc2.comps
            if hasTag p.2 'C' ∧ p.2 ∉ acc2.white then
              { worklist := acc2.worklist ++ [p.2],
                white := insert p.2 acc2.white,
                comps := comps3, rxns := acc2.rxns }
            else { acc2 with comps := comps3 })
          { acc with comps := comps2, rxns := rxns2 })
    acc

/-- The whitelist-driven worklist loop of `find_minimal_set` (lines
1028-1040), with explicit fuel (each processed worklist element consumes
one unit; the caller supplies enough to cover the initial whitelist plus
every possible append — at most one per reactant entry in the store). -/
def fmsAux (compounds : Map Cpd) (reactions : Map Rxn) :
    Nat → FmsAcc → Finset String × Finset String
  | 0, acc => (acc.comps, acc.rxns)
  | fuel + 1, acc =>
    match acc.worklist with
    | [] => (acc.comps, acc.rxns)
    | cpdId :: rest =>
      match mlookup compounds cpdId with
      | none => fmsAux compounds reactions fuel { acc with worklist := rest }
      | some c =>
        fmsAux compounds reactions fuel
          (fmsProcessCpd reactions c { acc with worklist := rest })

/-- `find_minimal_set` (lines 1016-1048): run the worklist to completion
and, when Tanimoto filtering is active, additionally keep every target
('T') compound id. -/
def findMinimalSet (st : NetState) (taniFilter : Bool)
    (whiteList : List String) : Finset String × Finset String :=
  let fuel := whiteList.length
    + (st.reactions.map (fun kv => kv.2.reactants.length)).sum + 1
  let res := fmsAux st.compounds st.reactions fuel
    { worklist := whiteList, white := whiteList.toFinset,
      comps := ∅, rxns := ∅ }
  if taniFilter then
    (((mkeys st.compounds).filter (fun cid => hasTag cid 'T')).foldl
      (fun q cid => insert cid q) res.1, res.2)
  else res

/-- `prune_network` (lines 953-970): keep exactly the compounds and
reactions of the minimal set. -/
def pruneNetwork (st : NetState) (taniFilter : Bool)
    (whiteList : List String) : NetState :=
  let sets := findMinimalSet st taniFilter whiteList
  { compounds := st.compounds.filter (fun kv => decide (kv.1 ∈ sets.1)),
    reactions := st.reactions.filter (fun kv => decide (kv.1 ∈ sets.2)) }

/-- A two-compound state: whitelisted Cw (never produced, `Product_of`
empty) is a reactant of the reaction r producing the whitelisted Cv. -/
def st10 : NetState :=
  { compounds :=
      [("Cw", mkCpd "Cw" ["r"] []), ("Cv", mkCpd "Cv" [] ["r"])],
    reactions := [("r", mkRxn "r" [(1, "Cw")] [(1, "Cv")])] }

/-- C10 counterexample: the whitelisted compound Cw has an empty
`Product_of`, yet `find_minimal_set` DOES include it in the returned
compound set — it enters through the backward closure of the other
whitelisted compound Cv, as a reactant of the reaction producing Cv — and
`prune_network` therefore retains it instead of deleting it. -/
theorem c10_whitelisted_reactant_retained_counterexample :
    (mlookup st10.compounds "Cw").map Cpd.productOf = some []
    ∧ "Cw" ∈ (findMinimalSet st10 false ["Cw", "Cv"]).1
    ∧ mcontains (pruneNetwork st10 false ["Cw", "Cv"]).compounds "Cw"
        = true := by
  refine ⟨?_, ?_, ?_⟩ <;> decide

theorem fmsAux_nil (compounds : Map Cpd) (reactions : Map Rxn) (n : Nat)
    (white comps rxns : Finset String) :
    fmsAux compounds reactions n ⟨[], white, comps, rxns⟩ = (comps, rxns) := by
  cases n with
  | zero => rfl
  | succ n => rfl

theorem mcontains_filter_not_mem (m : Map Cpd) (q : Finset String)
    (k : String) (h : k ∉ q) :
    mcontains (m.filter (fun kv => decide (kv.1 ∈ q))) k = false := by
  induction m with
  | nil => rfl
  | cons kv t ih =>
    rw [List.filter_cons]
    by_cases hk : kv.1 ∈ q
    · have hne : kv.1 ≠ k := fun he => h (he ▸ hk)
      simp only [hk, decide_True, if_pos]
      simpa [mcontains, mlookup, hne] using ih
    · simp only [hk, decide_False, Bool.false_eq_true, if_false]
      exact ih

/-- C10 (amended): a whitelisted compound with an empty `Product_of` is
excluded from the minimal set and deleted by `prune_network` only when it
is not pulled back in through the backward closure of the REST of the
whitelist — in particular whenever it is the sole whitelisted compound.
(With other whitelisted compounds present it can survive as a reactant or
product of a closure reaction, as the counterexample shows.) -/
theorem c10_sole_whitelisted_not_produced_is_pruned (st : NetState)
    (w : String) (c : Cpd) (hw : mlookup st.compounds w = some c)
    (hpo : c.productOf = []) :
    w ∉ (findMinimalSet st false [w]).1
    ∧ mcontains (pruneNetwork st false [w]).compounds w = false := by
  have hstep : fmsProcessCpd st.reactions c ⟨[], [w].toFinset, ∅, ∅⟩
      = ⟨[], [w].toFinset, ∅, ∅⟩ := by
    rw [fmsProcessCpd, hpo]
    rfl
  have hAll : ∀ n, fmsAux st.compounds st.reactions n
      ⟨[w], [w].toFinset, ∅, ∅⟩ = (∅, ∅) := by
    intro n
    cases n with
    | zero => rfl
    | succ n =>
      simp only [fmsAux, hw, hstep]
      exact fmsAux_nil st.compounds st.reactions n _ _ _
  have hfms : findMinimalSet st false [w] = (∅, ∅) := by
    simp only [findMinimalSet, Bool.false_eq_true, if_false]
    exact hAll _
  constructor
  · rw [hfms]
    simp
  · simp only [pruneNetwork, hfms]
    exact mcontains_filter_not_mem st.compounds ∅ w (by simp)

/-- C10 witness: the amended theorem applied to a one-compound network
whose sole whitelisted compound was never produced by any reaction. -/
theorem c10_sole_whitelisted_not_produced_is_pruned_witness :
    "Cw" ∉ (findMinimalSet ⟨[("Cw", mkCpd "Cw" [] [])], []⟩ false ["Cw"]).1
    ∧ mcontains (pruneNetwork ⟨[("Cw", mkCpd "Cw" [] [])], []⟩
        false ["Cw"]).compounds "Cw" = false :=
  c10_sole_whitelisted_not_produced_is_pruned
    ⟨[("Cw", mkCpd "Cw" [] [])], []⟩ "Cw" (mkCpd "Cw" [] []) rfl rfl

/-! ## C6: the removal pass of `_filter_by` (lines 868-925) -/

/-- The mid-pass state of the removal cascade: the two stores plus the
mutable `cpds_to_remove` queue. -/
structure FilterState where
  compounds : Map Cpd
  reactions : Map Rxn
  queue : List String
  deriving DecidableEq

/-- `compounds_to_check` (lines 827-829): current-generation compounds that
are neither coreactants nor targets. -/
def compoundsToCheck (compounds : Map Cpd) (generation : Nat) : List Cpd :=
  (compounds.map Prod.snd).filter (fun c =>
    c.generation == generation
      && !(c.ctype == "Coreactant" || c.ctype == "Target Compound"))

/-- The initial `cpds_to_remove` (lines 888-893): checked compounds that
are not flagged for expansion and carry a generated ('C') id. -/
def cpdsToRemoveInit (toCheck : List Cpd) : List String :=
  (toCheck.filter (fun c => c.expand == false && hasTag c.cid 'C')).map
    (fun c => c.cid)

/-- The set `rxns_to_check` (lines 894-896): every reaction logged on a
queued compound. -/
def rxnsToCheckSet (compounds : Map Cpd) (queue : List String) :
    Finset String :=
  queue.foldl
    (fun q cid =>
      match mlookup compounds cid with
      | none => q
      | some c => q ∪ (c.productOf ++ c.reactantIn).toFinset)
    ∅

/-- `should_delete_reaction` (lines 879-886): delete once every generated
('C') product is queued for removal. -/
def shouldDeleteReaction (queue : List String) (r : Rxn) : Bool :=
  r.products.all (fun p => !(hasTag p.2 'C') || queue.contains p.2)

/-- The log stripping done when a reaction is deleted (lines 903-913). -/
def stripRxnRefs (compounds : Map Cpd) (rxnId : String) (r : Rxn) :
    Map Cpd :=
  let m1 := r.products.foldl
    (fun m p =>
      if hasTag p.2 'C' then
        mmodify m p.2 (fun c =>
          if rxnId ∈ c.productOf then
            { c with productOf := c.productOf.erase rxnId }
          else c)
      else m)
    compounds
  r.reactants.foldl
    (fun m p =>
      if hasTag p.2 'C' then
        mmodify m p.2 (fun c =>
          if rxnId ∈ c.reactantIn then
            { c with reactantIn := c.reactantIn.erase rxnId }
          else c)
      else m)
    m1

/-- One iteration of the reaction-checking loop (lines 901-921): delete the
reaction and strip its back-references when every generated product is
queued, otherwise un-queue every currently queued product of the surviving
reaction.  (An id missing from the reaction store raises a `KeyError` in
the source; under the consistency hypotheses every checked id is
present.) -/
def processRxn (s : FilterState) (rxnId : String) : FilterState :=
  match mlookup s.reactions rxnId with
  | none => s
  | some r =>
    if shouldDeleteReaction s.queue r then
      { compounds := stripRxnRefs s.compounds rxnId r,
        reactions := merase s.reactions rxnId,
        queue := s.queue }
    else
      let queue2 := r.products.foldl
        (fun q p => if q.contains p.2 then q.erase p.2 else q) s.queue
      { s with queue := queue2 }

/-- The removal pass of `_filter_by` (lines 868-925): build the queue from
the checked compounds, process `rxns_to_check` in the (unspecified) Python
set order given by `order`, and finally delete every still-queued
compound. -/
def filterRemovalPass (st : NetState) (generation : Nat)
    (order : List String) : NetState :=
  let queue0 := cpdsToRemoveInit (compoundsToCheck st.compounds generation)
  let s := order.foldl processRxn
    { compounds := st.compounds, reactions := st.reactions, queue := queue0 }
  { compounds := s.queue.foldl merase s.compounds, reactions := s.reactions }

/-- A compound record with explicit generation and expansion flag. -/
def mkCpdG (cid : String) (gen : Nat) (expandFlag : Bool)
    (ri po : List String) : Cpd :=
  { name := none, cid := cid, smiles := cid, ctype := "Predicted",
    generation := gen, atomCount := [], reactantIn := ri, productOf := po,
    expand := expandFlag, formula := "", lastTani := 0 }

/-- A state for C6: the generation-1 compound Ca failed its filter and is
a reactant of reaction r, whose product Cb (generation 0) survives. -/
def st6 : NetState :=
  { compounds :=
      [("Ca", mkCpdG "Ca" 1 false ["r"] []),
        ("Cb", mkCpdG "Cb" 0 true [] ["r"])],
    reactions := [("r", mkRxn "r" [(1, "Ca")] [(1, "Cb")])] }

/-- C6 counterexample: the queued compound Ca is a REACTANT of reaction r,
and r survives because its product Cb is not queued; the un-queue step of
the source considers only products, so Ca is deleted while the surviving r
still lists it as a reactant — a retained reaction references a removed
compound, and a removal-queued compound still needed as a reactant of a
surviving reaction was deleted rather than un-queued. -/
theorem c6_reactant_unqueue_counterexample :
    rxnsToCheckSet st6.compounds
      (cpdsToRemoveInit (compoundsToCheck st6.compounds 1)) = {"r"}
    ∧ mcontains (filterRemovalPass st6 1 ["r"]).compounds "Ca" = false
    ∧ (mlookup (filterRemovalPass st6 1 ["r"]).reactions "r").map
        Rxn.reactants = some [(1, "Ca")] := by
  refine ⟨?_, ?_, ?_⟩ <;> decide

/-! ### C6 auxiliary lemmas -/

theorem mkeys_merase_sublist {α : Type} (m : Map α) (k : String) :
    (mkeys (merase m k)).Sublist (mkeys m) := by
  induction m with
  | nil => exact List.Sublist.refl _
  | cons kv t ih =>
    obtain ⟨k0, v⟩ := kv
    by_cases h : k0 = k
    · simp only [merase, if_pos h]
      exact (List.Sublist.refl _).cons _
    · simp only [merase, if_neg h, mkeys, List.map_cons]
      exact List.Sublist.cons₂ _ ih

theorem mlookup_merase_self_of_nodup {α : Type} (m : Map α) (k : String)
    (hn : (mkeys m).Nodup) : mlookup (merase m k) k = none := by
  induction m with
  | nil => rfl
  | cons kv t ih =>
    obtain ⟨k0, v⟩ := kv
    have hn' : k0 ∉ mkeys t ∧ (mkeys t).Nodup := List.nodup_cons.mp hn
    by_cases h : k0 = k
    · subst h
      have hm : merase ((k0, v) :: t) k0 = t := by simp [merase]
      rw [hm]
      cases hl : mlookup t k0 with
      | none => rfl
      | some v2 =>
        exact absurd
          (List.mem_map.mpr ⟨(k0, v2), mlookup_mem t k0 v2 hl, rfl⟩) hn'.1
    · simp only [merase, if_neg h, mlookup]
      exact ih hn'.2

theorem unqueue_sublist (ps : List (Nat × String)) (q : List String) :
    (ps.foldl (fun q p => if q.contains p.2 then q.erase p.2 else q)
      q).Sublist q := by
  induction ps generalizing q with
  | nil => exact List.Sublist.refl _
  | cons p t ih =>
    rw [List.foldl_cons]
    by_cases h : q.contains p.2
    · rw [if_pos h]
      exact (ih _).trans (List.erase_sublist _ _)
    · rw [if_neg h]
      exact ih q

theorem unqueue_not_mem (ps : List (Nat × String)) (q : List String)
    (hq : q.Nodup) (p : Nat × String) (hp : p ∈ ps) :
    p.2 ∉ ps.foldl (fun q p => if q.contains p.2 then q.erase p.2 else q) q := by
  induction ps generalizing q with
  | nil => simp at hp
  | cons p0 t ih =>
    rw [List.foldl_cons]
    by_cases h : q.contains p0.2
    all_goals rcases List.mem_cons.mp hp with he | hm
    · subst he
      rw [if_pos h]
      intro hmem
      have hmem2 : p.2 ∈ q.erase p.2 :=
        (unqueue_sublist t (q.erase p.2)).subset hmem
      exact ((hq.mem_erase_iff).mp hmem2).1 rfl
    · rw [if_pos h]
      exact ih (q.erase p0.2) (hq.erase _) hm
    · subst he
      rw [if_neg h]
      intro hmem
      have hmem2 : p.2 ∈ q := (unqueue_sublist t q).subset hmem
      exact h (by simpa using hmem2)
    · rw [if_neg h]
      exact ih q hq hm

theorem processRxn_none (s : FilterState) (rid : String)
    (h : mlookup s.reactions rid = none) : processRxn s rid = s := by
  rw [processRxn, h]

theorem processRxn_delete (s : FilterState) (rid : String) (r : Rxn)
    (h : mlookup s.reactions rid = some r)
    (hd : shouldDeleteReaction s.queue r = true) :
    processRxn s rid
      = ⟨stripRxnRefs s.compounds rid r, merase s.reactions rid, s.queue⟩ := by
  simp only [processRxn, h, hd, if_pos]

theorem processRxn_keep (s : FilterState) (rid : String) (r : Rxn)
    (h : mlookup s.reactions rid = some r)
    (hd : shouldDeleteReaction s.queue r = false) :
    processRxn s rid
      = ⟨s.compounds, s.reactions, r.products.foldl
          (fun q p => if q.contains p.2 then q.erase p.2 else q) s.queue⟩ := by
  simp only [processRxn, h, hd, Bool.false_eq_true, if_false]

theorem processRxn_queue_sublist (s : FilterState) (rid : String) :
    ((processRxn s rid).queue).Sublist s.queue := by
  cases h : mlookup s.reactions rid with
  | none => rw [processRxn_none s rid h]
  | some r =>
    by_cases hd : shouldDeleteReaction s.queue r
    · rw [processRxn_delete s rid r h hd]
    · rw [processRxn_keep s rid r h (by simpa using hd)]
      exact unqueue_sublist r.products s.queue

theorem foldl_processRxn_queue_sublist (l : List String) (s : FilterState) :
    ((l.foldl processRxn s).queue).Sublist s.queue := by
  induction l generalizing s with
  | nil => exact List.Sublist.refl _
  | cons rid t ih =>
    rw [List.foldl_cons]
    exact (ih _).trans (processRxn_queue_sublist s rid)

theorem processRxn_reactions_keys_sublist (s : FilterState) (rid : String) :
    (mkeys (processRxn s rid).reactions).Sublist (mkeys s.reactions) := by
  cases h : mlookup s.reactions rid with
  | none => rw [processRxn_none s rid h]
  | some r =>
    by_cases hd : shouldDeleteReaction s.queue r
    · rw [processRxn_delete s rid r h hd]
      exact mkeys_merase_sublist s.reactions rid
    · rw [processRxn_keep s rid r h (by simpa using hd)]

theorem processRxn_reactions_lookup_ne (s : FilterState) (rid rid2 : String)
    (hne : rid2 ≠ rid) :
    mlookup (processRxn s rid).reactions rid2 = mlookup s.reactions rid2 := by
  cases h : mlookup s.reactions rid with
  | none => rw [processRxn_none s rid h]
  | some r =>
    by_cases hd : shouldDeleteReaction s.queue r
    · rw [processRxn_delete s rid r h hd]
      exact mlookup_merase_ne s.reactions rid rid2 hne
    · rw [processRxn_keep s rid r h (by simpa using hd)]

theorem processRxn_reactions_lookup_some (s : FilterState) (rid rid2 : String)
    (r2 : Rxn) (hn : (mkeys s.reactions).Nodup)
    (h2 : mlookup (processRxn s rid).reactions rid2 = some r2) :
    mlookup s.reactions rid2 = some r2 := by
  by_cases hne : rid2 = rid
  · subst hne
    cases h : mlookup s.reactions rid2 with
    | none =>
      rw [processRxn_none s rid2 h] at h2
      rw [h] at h2
      exact absurd h2 (by simp)
    | some r =>
      by_cases hd : shouldDeleteReaction s.queue r
      · rw [processRxn_delete s rid2 r h hd] at h2
        rw [mlookup_merase_self_of_nodup s.reactions rid2 hn] at h2
        exact absurd h2 (by simp)
      · rw [processRxn_keep s rid2 r h (by simpa using hd)] at h2
        have h2a : mlookup s.reactions rid2 = some r2 := h2
        rw [h] at h2a
        exact h2a
  · rw [processRxn_reactions_lookup_ne s rid rid2 hne] at h2
    exact h2

theorem foldl_processRxn_reactions_keys_sublist (l : List String)
    (s : FilterState) :
    (mkeys (l.foldl processRxn s).reactions).Sublist (mkeys s.reactions) := by
  induction l generalizing s with
  | nil => exact List.Sublist.refl _
  | cons rid t ih =>
    rw [List.foldl_cons]
    exact (ih _).trans (processRxn_reactions_keys_sublist s rid)

theorem foldl_processRxn_reactions_lookup_notin (l : List String)
    (s : FilterState) (rid : String) (hnin : rid ∉ l) :
    mlookup (l.foldl processRxn s).reactions rid
      = mlookup s.reactions rid := by
  induction l generalizing s with
  | nil => rfl
  | cons rid0 t ih =>
    rw [List.foldl_cons]
    have h1 : rid ∉ t := fun hm => hnin (List.mem_cons_of_mem _ hm)
    have h2 : rid ≠ rid0 := fun he => hnin (he ▸ List.mem_cons_self _ _)
    rw [ih _ h1, processRxn_reactions_lookup_ne s rid0 rid h2]

theorem foldl_processRxn_reactions_lookup_some (l : List String)
    (s : FilterState) (rid : String) (r : Rxn)
    (hn : (mkeys s.reactions).Nodup)
    (h : mlookup (l.foldl processRxn s).reactions rid = some r) :
    mlookup s.reactions rid = some r := by
  induction l generalizing s with
  | nil => exact h
  | cons rid0 t ih =>
    rw [List.foldl_cons] at h
    have hn' : (mkeys (processRxn s rid0).reactions).Nodup :=
      (processRxn_reactions_keys_sublist s rid0).nodup hn
    exact processRxn_reactions_lookup_some s rid0 rid r hn (ih _ hn' h)

theorem mkeys_foldl_tagged_mmodify (l : List (Nat × String)) (m : Map Cpd)
    (f : Cpd → Cpd) :
    mkeys (l.foldl
      (fun m p => if hasTag p.2 'C' then mmodify m p.2 f else m) m)
      = mkeys m := by
  induction l generalizing m with
  | nil => rfl
  | cons p t ih =>
    rw [List.foldl_cons, ih]
    by_cases hp : hasTag p.2 'C'
    · rw [if_pos hp, mkeys_mmodify]
    · rw [if_neg hp]

theorem stripRxnRefs_keys (compounds : Map Cpd) (rxnId : String) (r : Rxn) :
    mkeys (stripRxnRefs compounds rxnId r) = mkeys compounds := by
  simp only [stripRxnRefs]
  rw [mkeys_foldl_tagged_mmodify, mkeys_foldl_tagged_mmodify]

theorem processRxn_compounds_keys (s : FilterState) (rid : String) :
    mkeys (processRxn s rid).compounds = mkeys s.compounds := by
  cases h : mlookup s.reactions rid with
  | none => rw [processRxn_none s rid h]
  | some r =>
    by_cases hd : shouldDeleteReaction s.queue r
    · rw [processRxn_delete s rid r h hd]
      exact stripRxnRefs_keys s.compounds rid r
    · rw [processRxn_keep s rid r h (by simpa using hd)]

theorem foldl_processRxn_compounds_keys (l : List String) (s : FilterState) :
    mkeys (l.foldl processRxn s).compounds = mkeys s.compounds := by
  induction l generalizing s with
  | nil => rfl
  | cons rid t ih =>
    rw [List.foldl_cons, ih _, processRxn_compounds_keys]

theorem survivors_products_unqueued (l : List String) :
    ∀ (s : FilterState), l.Nodup → (mkeys s.reactions).Nodup →
      s.queue.Nodup →
      ∀ rid ∈ l, ∀ r,
        mlookup (l.foldl processRxn s).reactions rid = some r →
        ∀ p ∈ r.products,
          (p : Nat × String).2 ∉ (l.foldl processRxn s).queue := by
  induction l with
  | nil =>
    intro s _ _ _ rid hrid
    simp at hrid
  | cons rid0 t ih =>
    intro s hl hn hq rid hrid r hr p hp
    have hl' : rid0 ∉ t ∧ t.Nodup := List.nodup_cons.mp hl
    rw [List.foldl_cons] at hr ⊢
    have hn' : (mkeys (processRxn s rid0).reactions).Nodup :=
      (processRxn_reactions_keys_sublist s rid0).nodup hn
    have hq' : (processRxn s rid0).queue.Nodup :=
      (processRxn_queue_sublist s rid0).nodup hq
    rcases List.mem_cons.mp hrid with he | hm
    · subst he
      have hsur : mlookup (processRxn s rid).reactions rid = some r := by
        rw [← foldl_processRxn_reactions_lookup_notin t (processRxn s rid)
          rid hl'.1]
        exact hr
      cases h0 : mlookup s.reactions rid with
      | none =>
        rw [processRxn_none s rid h0] at hsur
        rw [h0] at hsur
        simp at hsur
      | some r0 =>
        by_cases hd : shouldDeleteReaction s.queue r0
        · rw [processRxn_delete s rid r0 h0 hd] at hsur
          rw [mlookup_merase_self_of_nodup s.reactions rid hn] at hsur
          simp at hsur
        · rw [processRxn_keep s rid r0 h0 (by simpa using hd)] at hsur
          have hrr : r0 = r := by
            rw [h0] at hsur
            exact Option.some_inj.mp hsur
          subst hrr
          have hstep : (p : Nat × String).2 ∉ (processRxn s rid).queue := by
            rw [processRxn_keep s rid r0 h0 (by simpa using hd)]
            exact unqueue_not_mem r0.products s.queue hq p hp
          intro hmem
          exact hstep ((foldl_processRxn_queue_sublist t _).subset hmem)
    · exact ih (processRxn s rid0) hl'.2 hn' hq' rid hm r hr p hp

/-- Well-formed network state: unique keys in both stores and every
compound record keyed by its own id. -/
def WfNet (st : NetState) : Prop :=
  (mkeys st.compounds).Nodup ∧ (mkeys st.reactions).Nodup
    ∧ ∀ kv ∈ st.compounds, (kv : String × Cpd).2.cid = kv.1

/-- Product back-references are complete: every stored reaction is logged
in the `Product_of` of each of its stored generated products (maintained
by `update_cpds_rxns` during expansion). -/
def ProductRefsComplete (st : NetState) : Prop :=
  ∀ rid r, mlookup st.reactions rid = some r →
    ∀ p ∈ r.products, hasTag (Prod.snd p) 'C' = true →
      ∀ c, mlookup st.compounds (Prod.snd p) = some c → rid ∈ c.productOf

theorem mlookup_foldl_merase_notin {α : Type} (q : List String) (m : Map α)
    (k : String) (h : k ∉ q) :
    mlookup (q.foldl merase m) k = mlookup m k := by
  induction q generalizing m with
  | nil => rfl
  | cons k0 t ih =>
    rw [List.foldl_cons]
    have h1 : k ∉ t := fun hm => h (List.mem_cons_of_mem _ hm)
    have h2 : k ≠ k0 := fun he => h (he ▸ List.mem_cons_self _ _)
    rw [ih _ h1, mlookup_merase_ne m k0 k h2]

theorem cpdsToRemoveInit_sublist_keys (st : NetState) (generation : Nat)
    (hco : ∀ kv ∈ st.compounds, (kv : String × Cpd).2.cid = kv.1) :
    (cpdsToRemoveInit (compoundsToCheck st.compounds generation)).Sublist
      (mkeys st.compounds) := by
  unfold cpdsToRemoveInit compoundsToCheck
  have h1 : (((st.compounds.map Prod.snd).filter
        (fun c => c.generation == generation
          && !(c.ctype == "Coreactant"
            || c.ctype == "Target Compound"))).filter
      (fun c => c.expand == false && hasTag c.cid 'C')).Sublist
      (st.compounds.map Prod.snd) :=
    (List.filter_sublist _).trans (List.filter_sublist _)
  have h2 := h1.map (fun c => Cpd.cid c)
  have h3 : (st.compounds.map Prod.snd).map (fun c => Cpd.cid c)
      = mkeys st.compounds := by
    rw [List.map_map, mkeys]
    exact List.map_congr_left hco
  rw [h3] at h2
  exact h2

theorem cpdsToRemoveInit_nodup (st : NetState) (generation : Nat)
    (hwf : WfNet st) :
    (cpdsToRemoveInit (compoundsToCheck st.compounds generation)).Nodup :=
  (cpdsToRemoveInit_sublist_keys st generation hwf.2.2).nodup hwf.1

theorem mem_cpdsToRemoveInit (compounds : Map Cpd) (generation : Nat)
    (cid : String)
    (h : cid ∈ cpdsToRemoveInit (compoundsToCheck compounds generation)) :
    ∃ c, c ∈ compounds.map Prod.snd ∧ Cpd.cid c = cid
      ∧ hasTag (Cpd.cid c) 'C' = true := by
  unfold cpdsToRemoveInit compoundsToCheck at h
  rcases List.mem_map.mp h with ⟨c, hc, hcid⟩
  have hc2 := List.mem_filter.mp hc
  have hc3 := List.mem_filter.mp hc2.1
  refine ⟨c, hc3.1, hcid, ?_⟩
  have hb := hc2.2
  simp only [Bool.and_eq_true] at hb
  exact hb.2

theorem subset_rxnsToCheckSet_aux (compounds : Map Cpd) (queue : List String)
    (init : Finset String) :
    init ⊆ queue.foldl
      (fun q cid =>
        match mlookup compounds cid with
        | none => q
        | some c => q ∪ (c.productOf ++ c.reactantIn).toFinset)
      init := by
  induction queue generalizing init with
  | nil => exact fun x hx => hx
  | cons cid t ih =>
    rw [List.foldl_cons]
    intro x hx
    refine ih _ ?_
    cases h : mlookup compounds cid with
    | none => exact hx
    | some c => exact Finset.mem_union_left _ hx

theorem mem_rxnsToCheckSet_aux (compounds : Map Cpd) :
    ∀ (queue : List String) (init : Finset String) (cid : String) (c : Cpd)
      (rid : String), cid ∈ queue → mlookup compounds cid = some c →
      rid ∈ c.productOf ++ c.reactantIn →
      rid ∈ queue.foldl
        (fun q cid2 =>
          match mlookup compounds cid2 with
          | none => q
          | some c2 => q ∪ (c2.productOf ++ c2.reactantIn).toFinset)
        init := by
  intro queue
  induction queue with
  | nil =>
    intro init cid c rid hq
    simp at hq
  | cons cid0 t ih =>
    intro init cid c rid hq hl hr
    rw [List.foldl_cons]
    rcases List.mem_cons.mp hq with he | hm
    · subst he
      refine subset_rxnsToCheckSet_aux compounds t _ ?_
      rw [hl]
      exact Finset.mem_union_right _ (List.mem_toFinset.mpr hr)
    · exact ih _ cid c rid hm hl hr

theorem mem_rxnsToCheckSet (compounds : Map Cpd) (queue : List String)
    (cid : String) (c : Cpd) (rid : String) (hq : cid ∈ queue)
    (hl : mlookup compounds cid = some c)
    (hr : rid ∈ c.productOf ++ c.reactantIn) :
    rid ∈ rxnsToCheckSet compounds queue :=
  mem_rxnsToCheckSet_aux compounds queue ∅ cid c rid hq hl hr

/-- C6 (amended): after the removal pass of `_filter_by`, no reaction
remaining in the reaction store lists a compound deleted from the compound
store among its PRODUCTS — equivalently, every removal-queued compound that
is a product of a surviving reaction was un-queued rather than deleted.
The un-queue step considers only products, so a surviving reaction may
still reference a deleted compound as a REACTANT (the counterexample shows
this); the claim's reactant-based un-queueing is not what the code does. -/
theorem c6_no_surviving_reaction_has_deleted_product (st : NetState)
    (generation : Nat) (order : List String) (hwf : WfNet st)
    (hnord : order.Nodup)
    (hord : order.toFinset = rxnsToCheckSet st.compounds
      (cpdsToRemoveInit (compoundsToCheck st.compounds generation)))
    (hcons : ProductRefsComplete st) :
    ∀ cid, mcontains st.compounds cid = true →
      mcontains (filterRemovalPass st generation order).compounds cid
        = false →
      ∀ rid r,
        mlookup (filterRemovalPass st generation order).reactions rid
          = some r →
        ∀ p ∈ r.products, (p : Nat × String).2 ≠ cid := by
  intro cid hin hout rid r hsur p hp hpe
  have hq0n : (cpdsToRemoveInit
      (compoundsToCheck st.compounds generation)).Nodup :=
    cpdsToRemoveInit_nodup st generation hwf
  have hsur1 : mlookup ((order.foldl processRxn
      ⟨st.compounds, st.reactions,
        cpdsToRemoveInit (compoundsToCheck st.compounds generation)⟩
      : FilterState).reactions) rid = some r := hsur
  have hout1 : mcontains (((order.foldl processRxn
      ⟨st.compounds, st.reactions,
        cpdsToRemoveInit (compoundsToCheck st.compounds generation)⟩
      : FilterState).queue).foldl merase
      ((order.foldl processRxn
      ⟨st.compounds, st.reactions,
        cpdsToRemoveInit (compoundsToCheck st.compounds generation)⟩
      : FilterState).compounds)) cid = false := hout
  have hcid_in_q1 : cid ∈ (order.foldl processRxn
      ⟨st.compounds, st.reactions,
        cpdsToRemoveInit (compoundsToCheck st.compounds generation)⟩
      : FilterState).queue := by
    by_contra hni
    have hpres := mlookup_foldl_merase_notin _ ((order.foldl processRxn
      ⟨st.compounds, st.reactions,
        cpdsToRemoveInit (compoundsToCheck st.compounds generation)⟩
      : FilterState).compounds) cid hni
    have hmem : cid ∈ mkeys ((order.foldl processRxn
        ⟨st.compounds, st.reactions,
          cpdsToRemoveInit (compoundsToCheck st.compounds generation)⟩
        : FilterState).compounds) := by
      rw [foldl_processRxn_compounds_keys]
      exact (mcontains_iff_mem_mkeys st.compounds cid).mp hin
    have hsome := (mcontains_iff_mem_mkeys _ cid).mpr hmem
    rw [mcontains] at hsome hout1
    rw [hpres] at hout1
    rw [hout1] at hsome
    exact Bool.false_ne_true hsome
  have hcid_q0 : cid ∈ cpdsToRemoveInit
      (compoundsToCheck st.compounds generation) :=
    (foldl_processRxn_queue_sublist order _).subset hcid_in_q1
  by_cases hmemord : rid ∈ order
  · have hnq := survivors_products_unqueued order
      ⟨st.compounds, st.reactions,
        cpdsToRemoveInit (compoundsToCheck st.compounds generation)⟩
      hnord hwf.2.1 hq0n rid hmemord r hsur1 p hp
    rw [hpe] at hnq
    exact hnq hcid_in_q1
  · have hsur0 : mlookup st.reactions rid = some r := by
      rw [foldl_processRxn_reactions_lookup_notin order _ rid hmemord]
        at hsur1
      exact hsur1
    rcases mem_cpdsToRemoveInit st.compounds generation cid hcid_q0
      with ⟨c, hcval, hccid, hctag⟩
    rcases List.mem_map.mp hcval with ⟨kv, hkv, hkvc⟩
    have hkey : kv.1 = cid := by
      rw [← hwf.2.2 kv hkv, hkvc, hccid]
    have hlc : mlookup st.compounds cid = some c := by
      have := mlookup_eq_of_mem_nodup st.compounds kv hwf.1 hkv
      rw [hkey, hkvc] at this
      exact this
    have htagp : hasTag (Prod.snd p) 'C' = true := by
      rw [hpe, ← hccid]
      exact hctag
    have hrid_logged : rid ∈ c.productOf := by
      refine hcons rid r hsur0 p hp htagp c ?_
      rw [hpe]
      exact hlc
    have hrid_check : rid ∈ rxnsToCheckSet st.compounds
        (cpdsToRemoveInit (compoundsToCheck st.compounds generation)) :=
      mem_rxnsToCheckSet st.compounds _ cid c rid hcid_q0 hlc
        (List.mem_append_left _ hrid_logged)
    rw [← hord] at hrid_check
    exact hmemord (List.mem_toFinset.mp hrid_check)

/-- C6 witness: the amended theorem applied to the concrete state `st6` —
the compound Ca is deleted by the pass, the reaction r survives, and the
theorem yields that r's product entry (1, "Cb") is not the deleted Ca. -/
theorem c6_no_surviving_reaction_has_deleted_product_witness :
    mcontains st6.compounds "Ca" = true
    ∧ mcontains (filterRemovalPass st6 1 ["r"]).compounds "Ca" = false
    ∧ mlookup (filterRemovalPass st6 1 ["r"]).reactions "r"
        = some (mkRxn "r" [(1, "Ca")] [(1, "Cb")])
    ∧ ((1, "Cb") : Nat × String).2 ≠ "Ca" :=
  ⟨by decide, by decide, by decide,
    c6_no_surviving_reaction_has_deleted_product st6 1 ["r"]
      ⟨by decide, by decide, by decide⟩ (by decide) (by decide)
      (by
        intro rid r hl p hp htag c hc
        have hl2 : (if "r" = rid then
            some (mkRxn "r" [(1, "Ca")] [(1, "Cb")]) else none) = some r := hl
        by_cases he : "r" = rid
        · subst he
          rw [if_pos rfl] at hl2
          have hr : r = mkRxn "r" [(1, "Ca")] [(1, "Cb")] :=
            (Option.some_inj.mp hl2).symm
          subst hr
          have hpv : p = (1, "Cb") := by simpa [mkRxn] using hp
          rw [hpv] at hc
          have hx : mlookup st6.compounds "Cb"
              = some (mkCpdG "Cb" 0 true [] ["r"]) := by decide
          rw [hx] at hc
          have hcv : c = mkCpdG "Cb" 0 true [] ["r"] :=
            (Option.some_inj.mp hc).symm
          rw [hcv]
          simp [mkCpdG]
        · rw [if_neg he] at hl2
          exact absurd hl2 (by simp))
      "Ca" (by decide) (by decide) "r"
      (mkRxn "r" [(1, "Ca")] [(1, "Cb")]) (by decide) (1, "Cb") (by decide)⟩

end MineDB
